import Mathlib

/-!
# DKAllocatorChain: the allocator registry of DKMalloc

A shallow embedding of `DKMalloc/DKAllocatorChain.cpp`.

* The intrusive list is kept as in the source: a head pointer `first` and a
  `next` field per provider object, not as a Lean list.  `IsChain` relates the
  pointer structure to the list of providers met on the walk from the head to
  `NULL`.
* Every `while`/`for` loop of the source takes a fuel argument and reports
  `Fault.outOfFuel` when it is exhausted, so a cyclic chain (on which the source
  loops forever) is observable.
* A dereference of a `NULL` registry pointer is reported as `Fault.nullDeref`.
* `unsigned int` arithmetic is `Nat` arithmetic reduced modulo `2 ^ 32`,
  `size_t` arithmetic is reduced modulo `2 ^ bits` for a word size `bits`.
* The virtual `Purge` of a provider is an external collaborator: the value it
  returns on the provider at `p` is `Purge p`, and it does not touch the chain.
* The file-level `static DKAllocatorChain::Maintainer maintainer` is a token like
  any other: its constructor and destructor are ordinary token operations, run at
  a point of static initialisation and destruction that the language leaves
  unspecified relative to other translation units.
-/

namespace DKFoundation

/-- Address of a `DKAllocatorChain` object (a provider).  A nullable pointer is
an `Option Ptr`, `none` being `NULL`. -/
abbrev Ptr := Nat

/-- Ways in which a run of the embedded code can fail to return. -/
inductive Fault
  | nullDeref
  | outOfFuel
  deriving DecidableEq, Repr

/-- Calls and writes recorded in the trace of a run. -/
inductive Event
  | createTable
  | destroyTable
  | setInstance
  | clearInstance
  | destroyed (p : Ptr)
  | purged (p : Ptr)
  deriving DecidableEq, Repr

/-- Program state.  `holderInit` tells whether the function-local
`static Chain* p` of `Chain::Instance` has been initialised (this happens once;
it is the only place a `Chain` is allocated).  `instanceNonNull` is
`Chain::instance != NULL`.  `first` and `refCount` are the fields of that one
`Chain` object, `next` is the `next` field of every provider object, `log` is
the trace of hook calls, instance writes, provider destructions and purges. -/
structure World where
  holderInit : Bool
  instanceNonNull : Bool
  first : Option Ptr
  refCount : Nat
  next : Ptr → Option Ptr
  log : List Event

/-- State at program start: statics are zero-initialised, nothing is logged,
provider memory `mem` is arbitrary. -/
def World.start (mem : Ptr → Option Ptr) : World :=
  { holderInit := false, instanceNonNull := false, first := none, refCount := 0,
    next := mem, log := [] }

/-- Number of values of `Chain::RefCount` (`unsigned int`). -/
def RefCountMod : Nat := 2 ^ 32

/-- Constructor `Chain::Chain`. -/
def Chain.new (w : World) : World :=
  { w with
    log := w.log ++ [Event.createTable, Event.setInstance]
    first := none
    instanceNonNull := true
    refCount := 0 }

/-- Destructor-independent accessor `Chain::Instance`: initialises the static
holder on the first call only, then returns `p->instance`, i.e. the static
member `Chain::instance`.  The Boolean is "the returned pointer is not NULL". -/
def Chain.Instance (w : World) : World × Bool :=
  if w.holderInit then (w, w.instanceNonNull)
  else
    let w1 : World := { Chain.new w with holderInit := true }
    (w1, w1.instanceNonNull)

/-- Method `Chain::IncrementRef`: new state and returned count. -/
def Chain.IncrementRef (w : World) : World × Nat :=
  let r := (w.refCount + 1) % RefCountMod
  ({ w with refCount := r }, r)

/-- Method `Chain::DecrementRef`: new state and returned count. -/
def Chain.DecrementRef (w : World) : World × Nat :=
  let r := (w.refCount + RefCountMod - 1) % RefCountMod
  ({ w with refCount := r }, r)

/-- Loop `while (last->next) last = last->next;` started at `last`. -/
def walkLast : Nat → (Ptr → Option Ptr) → Ptr → Option Ptr
  | 0, _, _ => none
  | fuel + 1, next, last =>
    match next last with
    | none => some last
    | some n => walkLast fuel next n

/-- Constructor `DKAllocatorChain::DKAllocatorChain` run for the object at
`this`. -/
def DKAllocatorChain.construct (fuel : Nat) (this : Ptr) (w : World) : Except Fault World :=
  let w0 : World := { w with next := Function.update w.next this none }
  match Chain.Instance w0 with
  | (_, false) => .error Fault.nullDeref
  | (c, true) =>
    match c.first with
    | some f =>
      match walkLast fuel c.next f with
      | none => .error Fault.outOfFuel
      | some last => .ok { c with next := Function.update c.next last (some this) }
    | none => .ok { c with first := some this }

/-- Loop `for (chain = c->first; chain; chain = chain->next)` of the provider
destructor, started at `chain`; returns the `next` fields after the loop. -/
def unlinkLoop : Nat → (Ptr → Option Ptr) → Option Ptr → Ptr → Option (Ptr → Option Ptr)
  | 0, _, _, _ => none
  | _ + 1, next, none, _ => some next
  | fuel + 1, next, some chain, this =>
    if next chain = some this then
      some (Function.update next chain (next this))
    else
      unlinkLoop fuel next (next chain) this

/-- Destructor `DKAllocatorChain::~DKAllocatorChain` run for the object at
`this`. -/
def DKAllocatorChain.destruct (fuel : Nat) (this : Ptr) (w : World) : Except Fault World :=
  match Chain.Instance w with
  | (_, false) => .error Fault.nullDeref
  | (c, true) =>
    if c.first = some this then
      .ok { c with first := c.next this, log := c.log ++ [Event.destroyed this] }
    else
      match unlinkLoop fuel c.next c.first this with
      | none => .error Fault.outOfFuel
      | some next1 => .ok { c with next := next1, log := c.log ++ [Event.destroyed this] }

/-- Loop of `DKAllocatorChain::Cleanup` started at `chain` with accumulator
`purged`; `Purge p` is the value the virtual `Purge` returns on provider `p`.
Returns the accumulator and the purge calls made, in order. -/
def cleanupLoop (bits : Nat) (Purge : Ptr → Nat) :
    Nat → (Ptr → Option Ptr) → Option Ptr → Nat → Option (Nat × List Event)
  | 0, _, _, _ => none
  | _ + 1, _, none, purged => some (purged, [])
  | fuel + 1, next, some chain, purged =>
    match cleanupLoop bits Purge fuel next (next chain) ((purged + Purge chain % 2 ^ bits) % 2 ^ bits) with
    | none => none
    | some (r, evs) => some (r, Event.purged chain :: evs)

/-- Static method `DKAllocatorChain::Cleanup`; `bits` is the width of `size_t`. -/
def DKAllocatorChain.Cleanup (bits : Nat) (Purge : Ptr → Nat) (fuel : Nat) (w : World) :
    Except Fault (World × Nat) :=
  match Chain.Instance w with
  | (_, false) => .error Fault.nullDeref
  | (c, true) =>
    match cleanupLoop bits Purge fuel c.next c.first 0 with
    | none => .error Fault.outOfFuel
    | some (r, evs) => .ok ({ c with log := c.log ++ evs }, r)

/-- Static method `DKAllocatorChain::FirstAllocator`. -/
def DKAllocatorChain.FirstAllocator (w : World) : Except Fault (World × Option Ptr) :=
  match Chain.Instance w with
  | (_, false) => .error Fault.nullDeref
  | (c, true) => .ok (c, c.first)

/-- Method `DKAllocatorChain::NextAllocator`. -/
def DKAllocatorChain.NextAllocator (this : Ptr) (w : World) : Option Ptr :=
  w.next this

/-- Outer loop `while (true)` of `Chain::~Chain`: read `first`, walk to the last
node, `delete` it (which runs the provider destructor), repeat until `first` is
`NULL`. -/
def Chain.drain (fuel : Nat) : Nat → World → Except Fault World
  | 0, _ => .error Fault.outOfFuel
  | n + 1, w =>
    match w.first with
    | none => .ok w
    | some p =>
      match walkLast fuel w.next p with
      | none => .error Fault.outOfFuel
      | some last =>
        match DKAllocatorChain.destruct fuel last w with
        | .error e => .error e
        | .ok w1 => Chain.drain fuel n w1

/-- Destructor `Chain::~Chain` (followed by `operator delete`). -/
def Chain.delete (fuel : Nat) (w : World) : Except Fault World :=
  match Chain.drain fuel fuel w with
  | .error e => .error e
  | .ok w1 =>
    .ok { w1 with
          log := w1.log ++ [Event.destroyTable, Event.clearInstance]
          instanceNonNull := false
          first := none }

/-- Condition of the assertion `DKASSERT_STD_DEBUG( ref >= 0)` that both the
constructor and the destructor of `Maintainer` make on the returned count. -/
def Maintainer.refAssertion (ref : Nat) : Bool := decide (0 ≤ ref)

/-- Constructor `DKAllocatorChain::Maintainer::Maintainer`.  The assertion
`ref >= 0` (its condition is `Maintainer.refAssertion`) holds for every unsigned
value, so it raises no fault. -/
def Maintainer.construct (w : World) : Except Fault World :=
  match Chain.Instance w with
  | (_, false) => .error Fault.nullDeref
  | (c, true) => .ok (Chain.IncrementRef c).1

/-- Destructor `DKAllocatorChain::Maintainer::~Maintainer`. -/
def Maintainer.destruct (fuel : Nat) (w : World) : Except Fault World :=
  match Chain.Instance w with
  | (_, false) => .error Fault.nullDeref
  | (c, true) =>
    let r := Chain.DecrementRef c
    if r.2 = 0 then Chain.delete fuel r.1 else .ok r.1

/-- The walk from head pointer `h` along `next` meets exactly the providers of
the list, in order, and then reaches `NULL`. -/
def IsChain (next : Ptr → Option Ptr) : Option Ptr → List Ptr → Prop
  | h, [] => h = none
  | h, x :: xs => h = some x ∧ IsChain next (next x) xs

instance IsChain.decidable (next : Ptr → Option Ptr) :
    (h : Option Ptr) → (l : List Ptr) → Decidable (IsChain next h l)
  | h, [] => inferInstanceAs (Decidable (h = none))
  | h, x :: xs =>
    @instDecidableAnd (h = some x) (IsChain next (next x) xs) inferInstance
      (IsChain.decidable next (next x) xs)

/-- The registry exists: the holder is initialised and `Chain::instance` is set. -/
def Live (w : World) : Prop := w.holderInit = true ∧ w.instanceNonNull = true

instance Live.decidable (w : World) : Decidable (Live w) :=
  inferInstanceAs (Decidable (w.holderInit = true ∧ w.instanceNonNull = true))

/-- Client-side enumeration: start at `FirstAllocator()` and follow
`NextAllocator()` until `NULL`, collecting the providers met. -/
def enumerateFrom : Nat → World → Option Ptr → Except Fault (List Ptr)
  | 0, _, _ => .error Fault.outOfFuel
  | _ + 1, _, none => .ok []
  | fuel + 1, w, some p =>
    match enumerateFrom fuel w (DKAllocatorChain.NextAllocator p w) with
    | .error e => .error e
    | .ok l => .ok (p :: l)

/-- Enumeration of all registered providers from `FirstAllocator`. -/
def enumerate (fuel : Nat) (w : World) : Except Fault (List Ptr) :=
  match DKAllocatorChain.FirstAllocator w with
  | .error e => .error e
  | .ok (c, h) => enumerateFrom fuel c h

/-- Construct the providers of a list one after the other. -/
def constructAll (fuel : Nat) : List Ptr → World → Except Fault World
  | [], w => .ok w
  | p :: ps, w =>
    match DKAllocatorChain.construct fuel p w with
    | .error e => .error e
    | .ok w1 => constructAll fuel ps w1

/-- Destroy the providers of a list one after the other. -/
def destructAll (fuel : Nat) : List Ptr → World → Except Fault World
  | [], w => .ok w
  | p :: ps, w =>
    match DKAllocatorChain.destruct fuel p w with
    | .error e => .error e
    | .ok w1 => destructAll fuel ps w1

/-- A registry created at program start, before any provider or token. -/
def freshWorld : World := (Chain.Instance (World.start (fun _ => none))).1

/-- A live registry whose chain is `1 → 2 → NULL`; provider 9 is linked to
nothing in it. -/
def twoWorld : World :=
  { holderInit := true, instanceNonNull := true, first := some 1, refCount := 0,
    next := fun q => if q = 1 then some 2 else if q = 9 then some 1 else none,
    log := [Event.createTable, Event.setInstance] }

/-- A live registry whose chain is `1 → 2 → 3 → NULL`. -/
def threeWorld : World :=
  { holderInit := true, instanceNonNull := true, first := some 1, refCount := 0,
    next := fun q => if q = 1 then some 2 else if q = 2 then some 3 else none,
    log := [Event.createTable, Event.setInstance] }

/-- The two operations on lifetime tokens (`Maintainer` objects). -/
inductive TokenOp
  | construct
  | destruct
  deriving DecidableEq, Repr

/-- Run one token operation. -/
def TokenOp.step (fuel : Nat) : TokenOp → World → Except Fault World
  | TokenOp.construct, w => Maintainer.construct w
  | TokenOp.destruct, w => Maintainer.destruct fuel w

/-- Run a sequence of token operations, stopping at the first fault. -/
def runTokens (fuel : Nat) : List TokenOp → World → Except Fault World
  | [], w => .ok w
  | op :: ops, w =>
    match TokenOp.step fuel op w with
    | .error e => .error e
    | .ok w1 => runTokens fuel ops w1

/-- Number of times the registry destructor has run to its end, read off the
trace (`DestroyAllocationTable` is called once per run of `Chain::~Chain`). -/
def teardowns (w : World) : Nat := w.log.count Event.destroyTable

/-- The sequence of token operations runs without a fault and ends with a
reference count above zero. -/
def countPositiveAfter (fuel : Nat) (w : World) (ops : List TokenOp) : Bool :=
  match runTokens fuel ops w with
  | .ok w1 => decide (0 < w1.refCount)
  | .error _ => false

/-- A live registry with an empty chain and the largest reference count. -/
def maxCountWorld : World :=
  { holderInit := true, instanceNonNull := true, first := none, refCount := 4294967295,
    next := fun _ => none, log := [Event.createTable, Event.setInstance] }

/-- Relation between the start state `w0` and the state `wk` reached by the token
operations `pre` while the registry has stayed alive: the chain and the trace
are untouched and the count is the number of constructions minus the number of
destructions. -/
def TokenInv (w0 : World) (pre : List TokenOp) (wk : World) : Prop :=
  Live wk ∧ wk.first = w0.first ∧ wk.next = w0.next ∧ wk.log = w0.log ∧
  wk.refCount < RefCountMod ∧
  pre.count TokenOp.construct = pre.count TokenOp.destruct + wk.refCount

/-- Operations a program can perform on the registry. -/
inductive Op
  | getInstance
  | construct (p : Ptr)
  | destruct (p : Ptr)
  | tokenConstruct
  | tokenDestruct
  | cleanup
  deriving DecidableEq, Repr

/-- Run one operation: `Chain::Instance`, the provider constructor or destructor
for the object at `p`, the `Maintainer` constructor or destructor, or `Cleanup`
(whose result is dropped). -/
def Op.step (bits : Nat) (Purge : Ptr → Nat) (fuel : Nat) : Op → World → Except Fault World
  | Op.getInstance, w => .ok (Chain.Instance w).1
  | Op.construct p, w => DKAllocatorChain.construct fuel p w
  | Op.destruct p, w => DKAllocatorChain.destruct fuel p w
  | Op.tokenConstruct, w => Maintainer.construct w
  | Op.tokenDestruct, w => Maintainer.destruct fuel w
  | Op.cleanup, w =>
    match DKAllocatorChain.Cleanup bits Purge fuel w with
    | .error e => .error e
    | .ok r => .ok r.1

/-- Run a sequence of operations, stopping at the first fault. -/
def run (bits : Nat) (Purge : Ptr → Nat) (fuel : Nat) : List Op → World → Except Fault World
  | [], w => .ok w
  | op :: ops, w =>
    match Op.step bits Purge fuel op w with
    | .error e => .error e
    | .ok w1 => run bits Purge fuel ops w1

/-- Providers that are between construction and destruction after the
operations, given those that were so before. -/
def aliveAfter (alive : Ptr → Bool) : List Op → Ptr → Bool
  | [] => alive
  | Op.construct p :: ops => aliveAfter (Function.update alive p true) ops
  | Op.destruct p :: ops => aliveAfter (Function.update alive p false) ops
  | _ :: ops => aliveAfter alive ops

/-- The sequence consists of constructions of providers that are not alive,
destructions of providers that are alive, and cleanups. -/
def validProviderOps (alive : Ptr → Bool) : List Op → Bool
  | [] => true
  | Op.construct p :: ops => !alive p && validProviderOps (Function.update alive p true) ops
  | Op.destruct p :: ops => alive p && validProviderOps (Function.update alive p false) ops
  | Op.cleanup :: ops => validProviderOps alive ops
  | _ :: _ => false

/-- The registry at program start after one token has been constructed. -/
def oneTokenWorld : World :=
  { holderInit := true, instanceNonNull := true, first := none, refCount := 1,
    next := fun _ => none, log := [Event.createTable, Event.setInstance] }

/-- The state after that token has been destroyed: the registry is torn down. -/
def tornWorld : World :=
  { holderInit := true, instanceNonNull := false, first := none, refCount := 0,
    next := fun _ => none,
    log := [Event.createTable, Event.setInstance, Event.destroyTable, Event.clearInstance] }

/-- Events that record what is done to a provider (its destruction, a purge),
as opposed to the table hooks and the writes of the instance pointer. -/
def Event.isProviderEvent : Event → Bool
  | Event.destroyed _ => true
  | Event.purged _ => true
  | _ => false

/-- Trace of a registry that has been created and not torn down: the creation
hook and the setting of the instance pointer come first, and only provider
events follow. -/
def LiveTrace (w : World) : Prop :=
  w.holderInit = true ∧ w.instanceNonNull = true ∧
  ∃ mid, w.log = Event.createTable :: Event.setInstance :: mid ∧
    mid.all Event.isProviderEvent = true

/-- Trace of a registry that has been torn down: as `LiveTrace`, closed by the
teardown hook and the reset of the instance pointer; the chain is empty. -/
def TornTrace (w : World) : Prop :=
  w.holderInit = true ∧ w.instanceNonNull = false ∧ w.first = none ∧
  ∃ mid, w.log = Event.createTable :: Event.setInstance ::
      (mid ++ [Event.destroyTable, Event.clearInstance]) ∧
    mid.all Event.isProviderEvent = true

/-- Shape of the trace over the one lifetime of the registry: nothing before its
creation, then `LiveTrace`, then `TornTrace`. -/
def LifetimeTrace (w : World) : Prop :=
  (w.holderInit = false ∧ w.instanceNonNull = false ∧ w.log = []) ∨ LiveTrace w ∨ TornTrace w

/-- The chain `1 → 2 → 3` held by one token (count 1). -/
def heldWorld : World := { threeWorld with refCount := 1 }

/-- The chain `1 → 2 → 3` held by two tokens (count 2). -/
def sharedWorld : World := { threeWorld with refCount := 2 }

/-! ## Basic facts about the pointer structure -/

theorem Chain.Instance_of_live {w : World} (h : Live w) : Chain.Instance w = (w, true) := by
  obtain ⟨h1, h2⟩ := h
  simp [Chain.Instance, h1, h2]

theorem IsChain.frame {next : Ptr → Option Ptr} (q : Ptr) (v : Option Ptr) :
    ∀ {L : List Ptr} {h : Option Ptr}, IsChain next h L → q ∉ L →
      IsChain (Function.update next q v) h L := by
  intro L
  induction L with
  | nil => intro h hc _; simpa [IsChain] using hc
  | cons x xs ih =>
    intro h hc hq
    obtain ⟨hh, ht⟩ := hc
    simp only [List.mem_cons, not_or] at hq
    refine ⟨hh, ?_⟩
    rw [Function.update_noteq (Ne.symm hq.1)]
    exact ih ht hq.2

theorem IsChain.unique {next : Ptr → Option Ptr} :
    ∀ {L1 L2 : List Ptr} {h : Option Ptr}, IsChain next h L1 → IsChain next h L2 → L1 = L2 := by
  intro L1
  induction L1 with
  | nil =>
    intro L2 h h1 h2
    cases L2 with
    | nil => rfl
    | cons y ys =>
      simp only [IsChain] at h1 h2
      rw [h1] at h2
      exact absurd h2.1 (by simp)
  | cons x xs ih =>
    intro L2 h h1 h2
    cases L2 with
    | nil =>
      simp only [IsChain] at h1 h2
      rw [h2] at h1
      exact absurd h1.1 (by simp)
    | cons y ys =>
      obtain ⟨a1, b1⟩ := h1
      obtain ⟨a2, b2⟩ := h2
      have hxy : x = y := by
        rw [a1] at a2
        exact Option.some.inj a2
      subst hxy
      rw [ih b1 b2]

theorem IsChain.from_mem {next : Ptr → Option Ptr} (x : Ptr) :
    ∀ {L : List Ptr} {h : Option Ptr}, IsChain next h L → x ∈ L →
      ∃ L1, IsChain next (some x) L1 ∧ L1.length ≤ L.length := by
  intro L
  induction L with
  | nil => intro h _ hx; simp at hx
  | cons y ys ih =>
    intro h hc hx
    by_cases hxy : x = y
    · subst hxy
      exact ⟨x :: ys, ⟨rfl, hc.2⟩, le_refl _⟩
    · have hx1 : x ∈ ys := by
        rcases List.mem_cons.mp hx with h1 | h1
        · exact absurd h1 hxy
        · exact h1
      obtain ⟨L1, h1, h2⟩ := ih hc.2 hx1
      exact ⟨L1, h1, by simp only [List.length_cons]; omega⟩

theorem IsChain.nodup {next : Ptr → Option Ptr} :
    ∀ {L : List Ptr} {h : Option Ptr}, IsChain next h L → L.Nodup := by
  intro L
  induction L with
  | nil => intro _ _; exact List.nodup_nil
  | cons x xs ih =>
    intro h hc
    refine List.nodup_cons.mpr ⟨?_, ih hc.2⟩
    intro hx
    obtain ⟨L1, h1, h2⟩ := IsChain.from_mem x hc.2 hx
    have hself : IsChain next (some x) (x :: xs) := ⟨rfl, hc.2⟩
    have heq := IsChain.unique h1 hself
    rw [heq] at h2
    simp only [List.length_cons] at h2
    omega

theorem walkLast_chain {next : Ptr → Option Ptr} :
    ∀ (xs : List Ptr) (x : Ptr) (fuel : Nat), IsChain next (some x) (x :: xs) →
      xs.length < fuel → walkLast fuel next x = (x :: xs).getLast? := by
  intro xs
  induction xs with
  | nil =>
    intro x fuel hc hf
    obtain ⟨f, rfl⟩ : ∃ f, fuel = f + 1 := ⟨fuel - 1, by omega⟩
    have hn : next x = none := hc.2
    simp [walkLast, hn]
  | cons y ys ih =>
    intro x fuel hc hf
    obtain ⟨f, rfl⟩ : ∃ f, fuel = f + 1 := ⟨fuel - 1, by simp only [List.length_cons] at hf; omega⟩
    have hn : next x = some y := hc.2.1
    have hrec := ih y f ⟨rfl, hc.2.2⟩ (by simp only [List.length_cons] at hf; omega)
    simp only [walkLast, hn, hrec]
    simp [List.getLast?_cons_cons]

theorem IsChain.snoc {next : Ptr → Option Ptr} (p : Ptr) (hp : next p = none) :
    ∀ (xs : List Ptr) (x last : Ptr), IsChain next (some x) (x :: xs) → p ∉ x :: xs →
      (x :: xs).getLast? = some last →
      IsChain (Function.update next last (some p)) (some x) (x :: xs ++ [p]) := by
  intro xs
  induction xs with
  | nil =>
    intro x last hc hnot hl
    simp only [List.getLast?_singleton, Option.some.injEq] at hl
    subst hl
    have hpx : p ≠ x := by
      intro h; exact hnot (by simp [h])
    refine ⟨rfl, ?_, ?_⟩
    · simp
    · simp only [IsChain]
      rw [Function.update_noteq hpx]
      exact hp
  | cons y ys ih =>
    intro x last hc hnot hl
    have hnd := IsChain.nodup hc
    have hn : next x = some y := hc.2.1
    rw [List.getLast?_cons_cons] at hl
    have hlast_mem : last ∈ y :: ys := List.mem_of_getLast?_eq_some hl
    have hx_not : x ∉ y :: ys := (List.nodup_cons.mp hnd).1
    have hne : x ≠ last := by
      intro h; rw [h] at hx_not; exact hx_not hlast_mem
    have hp1 : p ∉ y :: ys := fun h => hnot (List.mem_cons_of_mem _ h)
    have hrec := ih y last ⟨rfl, hc.2.2⟩ hp1 hl
    refine ⟨rfl, ?_⟩
    rw [Function.update_noteq hne, hn]
    exact hrec

/-- Effect of the provider constructor on a live registry whose chain is `L`. -/
theorem construct_spec {w : World} {L : List Ptr} {p : Ptr} {fuel : Nat}
    (hlive : Live w) (hL : IsChain w.next w.first L) (hp : p ∉ L) (hfuel : L.length ≤ fuel) :
    ∃ w1, DKAllocatorChain.construct fuel p w = .ok w1 ∧ Live w1 ∧
      IsChain w1.next w1.first (L ++ [p]) ∧ w1.refCount = w.refCount ∧ w1.log = w.log := by
  have hlive0 : Live { w with next := Function.update w.next p none } := hlive
  have hc0 : IsChain (Function.update w.next p none) w.first L := IsChain.frame p none hL hp
  unfold DKAllocatorChain.construct
  simp only [Chain.Instance_of_live hlive0]
  cases L with
  | nil =>
    have hf : w.first = none := hL
    simp only [hf]
    refine ⟨_, rfl, hlive, ?_, rfl, rfl⟩
    refine ⟨rfl, ?_⟩
    simp [IsChain]
  | cons x xs =>
    have hf : w.first = some x := hL.1
    rw [hf] at hc0
    have hwalk := walkLast_chain xs x fuel hc0 (by simp only [List.length_cons] at hfuel; omega)
    obtain ⟨last, hlast⟩ : ∃ last, (x :: xs).getLast? = some last := by
      cases hg : (x :: xs).getLast? with
      | none => simp at hg
      | some l => exact ⟨l, rfl⟩
    rw [hlast] at hwalk
    simp only [hf, hwalk]
    refine ⟨_, rfl, hlive, ?_, rfl, rfl⟩
    have := IsChain.snoc p (by simp) xs x last hc0 hp hlast
    simpa [hf] using this

theorem enumerateFrom_chain {w : World} :
    ∀ (L : List Ptr) (h : Option Ptr) (fuel : Nat), IsChain w.next h L → L.length < fuel →
      enumerateFrom fuel w h = .ok L := by
  intro L
  induction L with
  | nil =>
    intro h fuel hc hf
    obtain ⟨f, rfl⟩ : ∃ f, fuel = f + 1 := ⟨fuel - 1, by omega⟩
    have hn : h = none := hc
    subst hn
    rfl
  | cons x xs ih =>
    intro h fuel hc hf
    obtain ⟨f, rfl⟩ : ∃ f, fuel = f + 1 := ⟨fuel - 1, by omega⟩
    obtain ⟨hh, ht⟩ := hc
    subst hh
    have hrec := ih (w.next x) f ht (by simp only [List.length_cons] at hf; omega)
    simp only [enumerateFrom, DKAllocatorChain.NextAllocator, hrec]

theorem enumerate_chain {w : World} {L : List Ptr} {fuel : Nat}
    (hlive : Live w) (hL : IsChain w.next w.first L) (hfuel : L.length < fuel) :
    enumerate fuel w = .ok L := by
  unfold enumerate DKAllocatorChain.FirstAllocator
  simp only [Chain.Instance_of_live hlive]
  exact enumerateFrom_chain L w.first fuel hL hfuel

theorem constructAll_spec (fuel : Nat) :
    ∀ (ps : List Ptr) (w : World) (L : List Ptr), Live w → IsChain w.next w.first L →
      (L ++ ps).Nodup → L.length + ps.length ≤ fuel →
      ∃ w1, constructAll fuel ps w = .ok w1 ∧ Live w1 ∧ IsChain w1.next w1.first (L ++ ps) ∧
        w1.refCount = w.refCount ∧ w1.log = w.log := by
  intro ps
  induction ps with
  | nil =>
    intro w L hlive hL _ _
    exact ⟨w, rfl, hlive, by simpa using hL, rfl, rfl⟩
  | cons p ps ih =>
    intro w L hlive hL hnd hf
    have hp : p ∉ L := by
      intro hmem
      have := (List.nodup_append.mp hnd).2.2
      exact this hmem (List.mem_cons_self p ps)
    simp only [List.length_cons] at hf
    obtain ⟨w1, h1, hl1, hc1, hr1, hg1⟩ :=
      @construct_spec w L p fuel hlive hL hp (by omega)
    have hnd1 : ((L ++ [p]) ++ ps).Nodup := by simpa using hnd
    obtain ⟨w2, h2, hl2, hc2, hr2, hg2⟩ :=
      ih w1 (L ++ [p]) hl1 hc1 hnd1 (by simp only [List.length_append, List.length_singleton]; omega)
    refine ⟨w2, ?_, hl2, by simpa using hc2, by rw [hr2, hr1], by rw [hg2, hg1]⟩
    simp only [constructAll, h1, h2]

theorem IsChain.head_ne {next : Ptr → Option Ptr} {h : Option Ptr} {L : List Ptr} {p : Ptr}
    (hc : IsChain next h L) (hp : p ∉ L) : h ≠ some p := by
  cases L with
  | nil =>
    have hn : h = none := hc
    simp [hn]
  | cons x xs =>
    have hn : h = some x := hc.1
    rw [hn]
    intro heq
    exact hp (by simp [Option.some.inj heq])

theorem unlinkLoop_absent {next : Ptr → Option Ptr} {this : Ptr} :
    ∀ (L : List Ptr) (h : Option Ptr) (fuel : Nat), IsChain next h L → this ∉ L →
      L.length < fuel → unlinkLoop fuel next h this = some next := by
  intro L
  induction L with
  | nil =>
    intro h fuel hc _ hf
    obtain ⟨f, rfl⟩ : ∃ f, fuel = f + 1 := ⟨fuel - 1, by omega⟩
    have hn : h = none := hc
    subst hn
    rfl
  | cons x xs ih =>
    intro h fuel hc hp hf
    obtain ⟨f, rfl⟩ : ∃ f, fuel = f + 1 := ⟨fuel - 1, by omega⟩
    obtain ⟨hh, ht⟩ := hc
    subst hh
    have hp1 : this ∉ xs := fun hm => hp (List.mem_cons_of_mem _ hm)
    have hne : next x ≠ some this := IsChain.head_ne ht hp1
    simp only [unlinkLoop, hne, if_false]
    exact ih (next x) f ht hp1 (by simp only [List.length_cons] at hf; omega)

theorem unlinkLoop_mem {next : Ptr → Option Ptr} {this : Ptr} :
    ∀ (xs : List Ptr) (c : Ptr) (fuel : Nat), IsChain next (some c) (c :: xs) → this ∈ xs →
      xs.length ≤ fuel →
      ∃ next1, unlinkLoop fuel next (some c) this = some next1 ∧
        IsChain next1 (some c) (c :: xs.erase this) ∧ ∀ z, z ∉ c :: xs → next1 z = next z := by
  intro xs
  induction xs with
  | nil => intro c fuel _ hm; simp at hm
  | cons y ys ih =>
    intro c fuel hc hm hf
    obtain ⟨f, rfl⟩ : ∃ f, fuel = f + 1 :=
      ⟨fuel - 1, by simp only [List.length_cons] at hf; omega⟩
    have hnd := IsChain.nodup hc
    have hcy : c ∉ y :: ys := (List.nodup_cons.mp hnd).1
    have hn : next c = some y := hc.2.1
    have hty : IsChain next (next y) ys := hc.2.2
    by_cases hy : y = this
    · subst hy
      refine ⟨Function.update next c (next y), ?_, ?_, ?_⟩
      · simp [unlinkLoop, hn]
      · refine ⟨rfl, ?_⟩
        simp only [List.erase_cons_head, Function.update_same]
        exact IsChain.frame c (next y) hty (fun hmem => hcy (List.mem_cons_of_mem _ hmem))
      · intro z hz
        have hzc : z ≠ c := fun h => hz (by simp [h])
        exact Function.update_noteq hzc _ _
    · have hm1 : this ∈ ys := by
        rcases List.mem_cons.mp hm with h1 | h1
        · exact absurd h1.symm hy
        · exact h1
      obtain ⟨next1, h1, h2, h3⟩ :=
        ih y f ⟨rfl, hty⟩ hm1 (by simp only [List.length_cons] at hf; omega)
      have hne : next c ≠ some this := by
        rw [hn]; intro h; exact hy (Option.some.inj h)
      refine ⟨next1, ?_, ?_, ?_⟩
      · simp only [unlinkLoop, hn]
        rw [hn] at hne
        simp only [hne, if_false]
        exact h1
      · refine ⟨rfl, ?_⟩
        have hbeq : (y == this) = false := by simpa using hy
        rw [List.erase_cons, hbeq]
        simp only [Bool.false_eq_true, if_false]
        rw [h3 c hcy, hn]
        exact h2
      · intro z hz
        exact h3 z (fun hmem => hz (List.mem_cons_of_mem _ hmem))

/-- Effect of the provider destructor for a provider that is in the chain. -/
theorem destruct_spec {w : World} {L : List Ptr} {p : Ptr} {fuel : Nat}
    (hlive : Live w) (hL : IsChain w.next w.first L) (hp : p ∈ L) (hfuel : L.length ≤ fuel) :
    ∃ w1, DKAllocatorChain.destruct fuel p w = .ok w1 ∧ Live w1 ∧
      IsChain w1.next w1.first (L.erase p) ∧ w1.refCount = w.refCount ∧
      w1.log = w.log ++ [Event.destroyed p] := by
  unfold DKAllocatorChain.destruct
  simp only [Chain.Instance_of_live hlive]
  cases L with
  | nil => simp at hp
  | cons x xs =>
    have hf : w.first = some x := hL.1
    by_cases hx : x = p
    · subst hx
      simp only [hf, if_true]
      refine ⟨_, rfl, hlive, ?_, rfl, rfl⟩
      simpa using hL.2
    · have hne : w.first ≠ some p := by
        rw [hf]; intro h; exact hx (Option.some.inj h)
      have hm : p ∈ xs := by
        rcases List.mem_cons.mp hp with h1 | h1
        · exact absurd h1.symm hx
        · exact h1
      have hc : IsChain w.next (some x) (x :: xs) := ⟨rfl, hL.2⟩
      obtain ⟨next1, h1, h2, _⟩ :=
        unlinkLoop_mem xs x fuel hc hm (by simp only [List.length_cons] at hfuel; omega)
      rw [hf] at hne
      simp only [hf, hne, if_false, h1]
      refine ⟨_, rfl, hlive, ?_, rfl, rfl⟩
      have hbeq : (x == p) = false := by simpa using hx
      rw [List.erase_cons, hbeq]
      simpa using h2

/-- Effect of the provider destructor for a provider that is not in the chain. -/
theorem destruct_absent {w : World} {L : List Ptr} {p : Ptr} {fuel : Nat}
    (hlive : Live w) (hL : IsChain w.next w.first L) (hp : p ∉ L) (hfuel : L.length < fuel) :
    DKAllocatorChain.destruct fuel p w =
      .ok { w with log := w.log ++ [Event.destroyed p] } := by
  unfold DKAllocatorChain.destruct
  simp only [Chain.Instance_of_live hlive]
  have hne : w.first ≠ some p := IsChain.head_ne hL hp
  simp only [hne, if_false, unlinkLoop_absent L w.first fuel hL hp hfuel]

theorem destructAll_spec {fuel : Nat} :
    ∀ (ds : List Ptr) (w : World) (L : List Ptr), Live w → IsChain w.next w.first L →
      ds.Nodup → (∀ d, d ∈ ds → d ∈ L) → L.length ≤ fuel →
      ∃ w1, DKFoundation.destructAll fuel ds w = .ok w1 ∧ Live w1 ∧
        IsChain w1.next w1.first (L.filter (fun q => decide (q ∉ ds))) ∧
        w1.refCount = w.refCount := by
  intro ds
  induction ds with
  | nil =>
    intro w L hlive hL _ _ _
    exact ⟨w, rfl, hlive, by simpa using hL, rfl⟩
  | cons d ds ih =>
    intro w L hlive hL hnd hsub hf
    have hdL : d ∈ L := hsub d (List.mem_cons_self d ds)
    obtain ⟨w1, h1, hl1, hc1, hr1, _⟩ := destruct_spec hlive hL hdL hf
    have hLnd : L.Nodup := IsChain.nodup hL
    have hd : d ∉ ds := (List.nodup_cons.mp hnd).1
    have hsub1 : ∀ e, e ∈ ds → e ∈ L.erase d := by
      intro e he
      have hne : e ≠ d := fun h => hd (h ▸ he)
      exact (List.mem_erase_of_ne hne).mpr (hsub e (List.mem_cons_of_mem _ he))
    have hlen : (L.erase d).length ≤ fuel := le_trans (List.length_erase_le d L) hf
    obtain ⟨w2, h2, hl2, hc2, hr2⟩ := ih w1 (L.erase d) hl1 hc1 (List.nodup_cons.mp hnd).2 hsub1 hlen
    refine ⟨w2, ?_, hl2, ?_, by rw [hr2, hr1]⟩
    · simp only [destructAll, h1, h2]
    · have heq : (L.erase d).filter (fun q => decide (q ∉ ds))
          = L.filter (fun q => decide (q ∉ d :: ds)) := by
        rw [List.Nodup.erase_eq_filter hLnd, List.filter_filter]
        apply List.filter_congr
        intro q _
        simp only [List.mem_cons, not_or, Bool.decide_and, Bool.and_comm, bne_iff_ne, ne_eq,
          decide_not, Bool.and_eq_true, Bool.not_eq_true', decide_eq_false_iff_not]
        by_cases hq : q = d <;> simp [hq]
      rw [← heq]
      exact hc2

/-! ## Registration and deregistration -/

/-- C1: registration appends at the tail.  On a live registry whose chain is
`L`, the constructor run for a provider `p` not in `L` returns and leaves the
chain `L ++ [p]`; and starting from an empty chain, constructing the distinct
providers `ps` in order and then enumerating with `FirstAllocator` followed by
`NextAllocator` until `NULL` yields exactly `ps`. -/
theorem C1_registration_appends_at_tail
    (w : World) (L : List Ptr) (p : Ptr) (fuel : Nat)
    (hlive : Live w) (hL : IsChain w.next w.first L) (hp : p ∉ L) (hfuel : L.length ≤ fuel)
    (w0 : World) (ps : List Ptr) (fuel0 : Nat)
    (hlive0 : Live w0) (hempty : w0.first = none) (hps : ps.Nodup)
    (hfuel0 : ps.length < fuel0) :
    (∃ w1, DKAllocatorChain.construct fuel p w = .ok w1 ∧
      IsChain w1.next w1.first (L ++ [p])) ∧
    (∃ w1, constructAll fuel0 ps w0 = .ok w1 ∧ enumerate fuel0 w1 = .ok ps) := by
  constructor
  · obtain ⟨w1, h1, _, h2, _, _⟩ := construct_spec hlive hL hp hfuel
    exact ⟨w1, h1, h2⟩
  · have h0 : IsChain w0.next w0.first [] := hempty
    obtain ⟨w1, h1, hl1, hc1, _, _⟩ :=
      constructAll_spec fuel0 ps w0 [] hlive0 h0 (by simpa using hps)
        (by simp only [List.length_nil]; omega)
    refine ⟨w1, h1, ?_⟩
    exact enumerate_chain hl1 (by simpa using hc1) hfuel0

/-- Witness of C1: provider 3 is appended to the chain `1 → 2`, and providers
1, 2, 3 registered on a fresh registry are enumerated as 1, 2, 3. -/
theorem C1_registration_appends_at_tail_witness :
    (Live twoWorld ∧ IsChain twoWorld.next twoWorld.first [1, 2] ∧ Live freshWorld) ∧
    ((∃ w1, DKAllocatorChain.construct 2 3 twoWorld = .ok w1 ∧
      IsChain w1.next w1.first ([1, 2] ++ [3])) ∧
     (∃ w1, constructAll 4 [1, 2, 3] freshWorld = .ok w1 ∧ enumerate 4 w1 = .ok [1, 2, 3])) :=
  ⟨⟨by decide, by decide, by decide⟩,
   C1_registration_appends_at_tail twoWorld [1, 2] 3 2 (by decide) (by decide) (by decide)
    (by decide) freshWorld [1, 2, 3] 4 (by decide) rfl (by decide) (by decide)⟩

/-- C2: deregistration removes exactly the destroyed provider.  On a live
registry whose chain is `L` (a chain is duplicate-free), the destructor run for
a provider `p` of `L` (head, middle or last) returns and leaves the chain
`L.erase p`, which no longer contains `p`, still contains every other provider
and keeps the original relative order; and after each step `k` of a sequence
`ds` of destructions of distinct providers of `L`, the chain is `L` without the
providers destroyed so far. -/
theorem C2_deregistration_removes_exactly
    (w : World) (L : List Ptr) (p : Ptr) (fuel : Nat)
    (hlive : Live w) (hL : IsChain w.next w.first L) (hp : p ∈ L) (hfuel : L.length ≤ fuel)
    (ds : List Ptr) (hds : ds.Nodup) (hsub : ∀ d, d ∈ ds → d ∈ L) (k : Nat) :
    (∃ w1, DKAllocatorChain.destruct fuel p w = .ok w1 ∧
      IsChain w1.next w1.first (L.erase p) ∧ p ∉ L.erase p ∧
      (∀ q, q ∈ L → q ≠ p → q ∈ L.erase p) ∧ (L.erase p).Sublist L) ∧
    (∃ wk, destructAll fuel (ds.take k) w = .ok wk ∧
      IsChain wk.next wk.first (L.filter (fun q => decide (q ∉ ds.take k)))) := by
  have hnd : L.Nodup := IsChain.nodup hL
  constructor
  · obtain ⟨w1, h1, _, h2, _, _⟩ := destruct_spec hlive hL hp hfuel
    refine ⟨w1, h1, h2, ?_, ?_, List.erase_sublist p L⟩
    · exact fun hmem => (List.Nodup.mem_erase_iff hnd).mp hmem |>.1 rfl
    · intro q hq hne
      exact (List.mem_erase_of_ne hne).mpr hq
  · have hnd1 : (ds.take k).Nodup := List.Nodup.sublist (List.take_sublist k ds) hds
    have hsub1 : ∀ d, d ∈ ds.take k → d ∈ L := fun d hd => hsub d (List.mem_of_mem_take hd)
    obtain ⟨wk, h1, _, h2, _⟩ := destructAll_spec (ds.take k) w L hlive hL hnd1 hsub1 hfuel
    exact ⟨wk, h1, h2⟩

/-- Witness of C2: on the chain `1 → 2 → 3`, destroying 2 leaves `1 → 3`, and
after the first two destructions of the order 3, 1, 2 the chain is `2`. -/
theorem C2_deregistration_removes_exactly_witness :
    (Live threeWorld ∧ IsChain threeWorld.next threeWorld.first [1, 2, 3]) ∧
    ((∃ w1, DKAllocatorChain.destruct 3 2 threeWorld = .ok w1 ∧
      IsChain w1.next w1.first ([1, 2, 3].erase 2) ∧ 2 ∉ [1, 2, 3].erase 2 ∧
      (∀ q, q ∈ [1, 2, 3] → q ≠ 2 → q ∈ [1, 2, 3].erase 2) ∧
      ([1, 2, 3].erase 2).Sublist [1, 2, 3]) ∧
     (∃ wk, destructAll 3 ([3, 1, 2].take 2) threeWorld = .ok wk ∧
      IsChain wk.next wk.first
        ([1, 2, 3].filter (fun q => decide (q ∉ [3, 1, 2].take 2))))) :=
  ⟨⟨by decide, by decide⟩,
   C2_deregistration_removes_exactly threeWorld [1, 2, 3] 2 3 (by decide) (by decide)
    (by decide) (by decide) [3, 1, 2] (by decide) (by decide) 2⟩

/-- C9: deregistering an absent provider is a silent no-op.  On a live registry
whose chain is `L`, the destructor run for a provider `p` that does not occur in
`L` returns without a fault and leaves the head pointer and every `next` field
as they were, so the chain is still `L`. -/
theorem C9_deregister_absent_is_noop
    (w : World) (L : List Ptr) (p : Ptr) (fuel : Nat)
    (hlive : Live w) (hL : IsChain w.next w.first L) (hp : p ∉ L) (hfuel : L.length < fuel) :
    ∃ w1, DKAllocatorChain.destruct fuel p w = .ok w1 ∧ w1.first = w.first ∧
      w1.next = w.next ∧ IsChain w1.next w1.first L := by
  rw [destruct_absent hlive hL hp hfuel]
  exact ⟨_, rfl, rfl, rfl, hL⟩

/-- Witness of C9: provider 9 is not in the chain `1 → 2`; destroying it changes
no link. -/
theorem C9_deregister_absent_is_noop_witness :
    (Live twoWorld ∧ IsChain twoWorld.next twoWorld.first [1, 2] ∧ 9 ∉ [1, 2]) ∧
    ∃ w1, DKAllocatorChain.destruct 3 9 twoWorld = .ok w1 ∧ w1.first = twoWorld.first ∧
      w1.next = twoWorld.next ∧ IsChain w1.next w1.first [1, 2] :=
  ⟨⟨by decide, by decide, by decide⟩,
   C9_deregister_absent_is_noop twoWorld [1, 2] 9 3 (by decide) (by decide) (by decide)
    (by decide)⟩

/-! ## Teardown -/

theorem erase_getLast_of_nodup {L : List Ptr} {last : Ptr} (hnd : L.Nodup)
    (hl : L.getLast? = some last) : L.erase last = L.dropLast ∧ L = L.dropLast ++ [last] := by
  have hsplit : L = L.dropLast ++ [last] := by
    have := List.dropLast_append_getLast? last hl
    exact this.symm
  refine ⟨?_, hsplit⟩
  have hnd1 : (L.dropLast ++ [last]).Nodup := by rw [← hsplit]; exact hnd
  have hnot : last ∉ L.dropLast := by
    intro hmem
    exact (List.nodup_append.mp hnd1).2.2 hmem (List.mem_singleton_self last)
  conv_lhs => rw [hsplit]
  rw [List.erase_append_right _ hnot]
  simp

/-- The drain loop of the registry destructor destroys the chain from the
back. -/
theorem drain_spec {fuel : Nat} :
    ∀ (n : Nat) (w : World) (L : List Ptr), Live w → IsChain w.next w.first L →
      L.length < n → L.length ≤ fuel →
      ∃ w1, Chain.drain fuel n w = .ok w1 ∧ Live w1 ∧ w1.first = none ∧
        w1.refCount = w.refCount ∧
        w1.log = w.log ++ L.reverse.map Event.destroyed := by
  intro n
  induction n with
  | zero => intro w L _ _ hn; omega
  | succ n ih =>
    intro w L hlive hL hn hf
    cases L with
    | nil =>
      have hnone : w.first = none := hL
      refine ⟨w, ?_, hlive, hnone, rfl, by simp⟩
      simp only [Chain.drain, hnone]
    | cons x xs =>
      have hfirst : w.first = some x := hL.1
      have hc : IsChain w.next (some x) (x :: xs) := ⟨rfl, hL.2⟩
      have hwalk := walkLast_chain xs x fuel hc (by simp only [List.length_cons] at hf; omega)
      obtain ⟨last, hlast⟩ : ∃ last, (x :: xs).getLast? = some last := by
        cases hg : (x :: xs).getLast? with
        | none => simp at hg
        | some l => exact ⟨l, rfl⟩
      rw [hlast] at hwalk
      have hmem : last ∈ x :: xs := List.mem_of_getLast?_eq_some hlast
      obtain ⟨w1, h1, hl1, hc1, hr1, hg1⟩ := destruct_spec hlive hL hmem hf
      obtain ⟨he, hsplit⟩ := erase_getLast_of_nodup (IsChain.nodup hL) hlast
      rw [he] at hc1
      have hlen : (x :: xs).dropLast.length = xs.length := by simp
      obtain ⟨w2, h2, hl2, hf2, hr2, hg2⟩ :=
        ih w1 (x :: xs).dropLast hl1 hc1 (by rw [hlen]; simp only [List.length_cons] at hn; omega)
          (by rw [hlen]; simp only [List.length_cons] at hf; omega)
      refine ⟨w2, ?_, hl2, hf2, by rw [hr2, hr1], ?_⟩
      · simp only [Chain.drain, hfirst, hwalk, h1, h2]
      · rw [hg2, hg1]
        conv_rhs => rw [hsplit]
        simp

/-- Effect of the registry destructor on a live registry whose chain is `L`. -/
theorem delete_spec {w : World} {L : List Ptr} {fuel : Nat}
    (hlive : Live w) (hL : IsChain w.next w.first L) (hfuel : L.length < fuel) :
    ∃ w1, Chain.delete fuel w = .ok w1 ∧ w1.holderInit = true ∧ w1.instanceNonNull = false ∧
      w1.first = none ∧ w1.refCount = w.refCount ∧
      w1.log = w.log ++ L.reverse.map Event.destroyed ++
        [Event.destroyTable, Event.clearInstance] := by
  obtain ⟨w1, h1, hl1, _, hr1, hg1⟩ := drain_spec fuel w L hlive hL hfuel (le_of_lt hfuel)
  refine ⟨{ w1 with
            log := w1.log ++ [Event.destroyTable, Event.clearInstance]
            instanceNonNull := false
            first := none }, ?_, hl1.1, rfl, rfl, hr1, ?_⟩
  · simp only [Chain.delete, h1]
  · simp only [hg1]

/-- C3: reverse-order teardown.  On a live registry whose chain is `L`, the
registry destructor returns, destroys the providers of `L` from the last to the
first, each once (the trace grows by the destructions of `L.reverse`, then the
table hook and the instance reset), and leaves an empty chain; in particular
providers `ps` registered in that order on an empty chain are destroyed in the
order `ps.reverse`. -/
theorem C3_reverse_order_teardown
    (w : World) (L : List Ptr) (fuel : Nat)
    (hlive : Live w) (hL : IsChain w.next w.first L) (hfuel : L.length < fuel)
    (w0 : World) (ps : List Ptr)
    (hlive0 : Live w0) (hempty : w0.first = none) (hps : ps.Nodup)
    (hfuel0 : ps.length < fuel) :
    (∃ w1, Chain.delete fuel w = .ok w1 ∧
      w1.log = w.log ++ L.reverse.map Event.destroyed ++
        [Event.destroyTable, Event.clearInstance] ∧
      w1.first = none ∧ IsChain w1.next w1.first []) ∧
    (∃ w1 w2, constructAll fuel ps w0 = .ok w1 ∧ Chain.delete fuel w1 = .ok w2 ∧
      w2.log = w0.log ++ ps.reverse.map Event.destroyed ++
        [Event.destroyTable, Event.clearInstance] ∧
      w2.first = none) := by
  constructor
  · obtain ⟨w1, h1, _, _, hf1, _, hg1⟩ := delete_spec hlive hL hfuel
    exact ⟨w1, h1, hg1, hf1, hf1⟩
  · have h0 : IsChain w0.next w0.first [] := hempty
    obtain ⟨w1, h1, hl1, hc1, _, hg1⟩ :=
      constructAll_spec fuel ps w0 [] hlive0 h0 (by simpa using hps)
        (by simp only [List.length_nil]; omega)
    have hc1a : IsChain w1.next w1.first ps := by simpa using hc1
    obtain ⟨w2, h2, _, _, hf2, _, hg2⟩ := delete_spec hl1 hc1a hfuel0
    exact ⟨w1, w2, h1, h2, by rw [hg2, hg1], hf2⟩

/-- Witness of C3: providers 1, 2, 3 registered in that order are destroyed as
3, 2, 1. -/
theorem C3_reverse_order_teardown_witness :
    (Live threeWorld ∧ IsChain threeWorld.next threeWorld.first [1, 2, 3] ∧ Live freshWorld) ∧
    ((∃ w1, Chain.delete 4 threeWorld = .ok w1 ∧
      w1.log = threeWorld.log ++ [1, 2, 3].reverse.map Event.destroyed ++
        [Event.destroyTable, Event.clearInstance] ∧
      w1.first = none ∧ IsChain w1.next w1.first []) ∧
     (∃ w1 w2, constructAll 4 [1, 2, 3] freshWorld = .ok w1 ∧ Chain.delete 4 w1 = .ok w2 ∧
      w2.log = freshWorld.log ++ [1, 2, 3].reverse.map Event.destroyed ++
        [Event.destroyTable, Event.clearInstance] ∧
      w2.first = none)) :=
  ⟨⟨by decide, by decide, by decide⟩,
   C3_reverse_order_teardown threeWorld [1, 2, 3] 4 (by decide) (by decide) (by decide)
    freshWorld [1, 2, 3] (by decide) rfl (by decide) (by decide)⟩

/-! ## Cleanup -/

theorem cleanupLoop_chain {bits : Nat} {Purge : Ptr → Nat} {next : Ptr → Option Ptr} :
    ∀ (L : List Ptr) (h : Option Ptr) (fuel acc : Nat), IsChain next h L → L.length < fuel →
      acc < 2 ^ bits →
      cleanupLoop bits Purge fuel next h acc =
        some ((acc + (L.map Purge).sum) % 2 ^ bits, L.map Event.purged) := by
  intro L
  induction L with
  | nil =>
    intro h fuel acc hc hf hacc
    obtain ⟨f, rfl⟩ : ∃ f, fuel = f + 1 := ⟨fuel - 1, by omega⟩
    have hn : h = none := hc
    subst hn
    simp [cleanupLoop, Nat.mod_eq_of_lt hacc]
  | cons x xs ih =>
    intro h fuel acc hc hf hacc
    obtain ⟨f, rfl⟩ : ∃ f, fuel = f + 1 := ⟨fuel - 1, by omega⟩
    obtain ⟨hh, ht⟩ := hc
    subst hh
    have hpos : 0 < 2 ^ bits := Nat.two_pow_pos bits
    have hrec := ih (next x) f ((acc + Purge x % 2 ^ bits) % 2 ^ bits) ht
      (by simp only [List.length_cons] at hf; omega) (Nat.mod_lt _ hpos)
    simp only [cleanupLoop, hrec, List.map_cons, List.sum_cons]
    rw [Nat.mod_add_mod, Nat.add_assoc acc, Nat.add_comm (Purge x % 2 ^ bits),
      ← Nat.add_assoc acc, Nat.add_mod_mod, Nat.add_assoc acc, Nat.add_comm _ (Purge x)]

/-- Effect of `Cleanup` on a live registry whose chain is `L`. -/
theorem cleanup_spec {bits : Nat} {Purge : Ptr → Nat} {w : World} {L : List Ptr} {fuel : Nat}
    (hlive : Live w) (hL : IsChain w.next w.first L) (hfuel : L.length < fuel) :
    DKAllocatorChain.Cleanup bits Purge fuel w =
      .ok ({ w with log := w.log ++ L.map Event.purged }, (L.map Purge).sum % 2 ^ bits) := by
  unfold DKAllocatorChain.Cleanup
  simp only [Chain.Instance_of_live hlive]
  have hpos : 0 < 2 ^ bits := Nat.two_pow_pos bits
  rw [cleanupLoop_chain L w.first fuel 0 hL hfuel hpos]
  simp

/-- C4 (as amended): on a live registry whose chain is `L`, `Cleanup` returns,
its result is the sum of the values returned by `Purge` on the providers of `L`
reduced modulo `2 ^ bits` (the accumulator is a `size_t`), hence exactly that
sum whenever the sum is below `2 ^ bits`, and the head pointer and every `next`
field, so the chain, are as before the call. -/
theorem C4_cleanup_sums_in_size_t_and_preserves
    (bits : Nat) (Purge : Ptr → Nat) (w : World) (L : List Ptr) (fuel : Nat)
    (hlive : Live w) (hL : IsChain w.next w.first L) (hfuel : L.length < fuel) :
    ∃ w1 r, DKAllocatorChain.Cleanup bits Purge fuel w = .ok (w1, r) ∧
      r = (L.map Purge).sum % 2 ^ bits ∧
      ((L.map Purge).sum < 2 ^ bits → r = (L.map Purge).sum) ∧
      w1.first = w.first ∧ w1.next = w.next ∧ IsChain w1.next w1.first L := by
  refine ⟨_, _, cleanup_spec hlive hL hfuel, rfl, ?_, rfl, rfl, hL⟩
  intro hlt
  exact Nat.mod_eq_of_lt hlt

/-- Witness of C4 (as amended): on the chain `1 → 2` with `Purge` returning ten
times the address, a 64-bit `Cleanup` returns 30. -/
theorem C4_cleanup_sums_in_size_t_and_preserves_witness :
    (Live twoWorld ∧ IsChain twoWorld.next twoWorld.first [1, 2]) ∧
    ∃ w1 r, DKAllocatorChain.Cleanup 64 (fun p => 10 * p) 3 twoWorld = .ok (w1, r) ∧
      r = ([1, 2].map (fun p => 10 * p)).sum % 2 ^ 64 ∧
      (([1, 2].map (fun p => 10 * p)).sum < 2 ^ 64 → r = ([1, 2].map (fun p => 10 * p)).sum) ∧
      w1.first = twoWorld.first ∧ w1.next = twoWorld.next ∧ IsChain w1.next w1.first [1, 2] :=
  ⟨⟨by decide, by decide⟩,
   C4_cleanup_sums_in_size_t_and_preserves 64 (fun p => 10 * p) twoWorld [1, 2] 3
    (by decide) (by decide) (by decide)⟩

/-- C4 fails as stated: on the chain `1 → 2` with a 64-bit `size_t` and both
providers reporting `2 ^ 63` (a valid `size_t`), `Cleanup` returns 0 while the
sum of the reported values is `2 ^ 64`. -/
theorem C4_exact_sum_counterexample :
    Live twoWorld ∧ IsChain twoWorld.next twoWorld.first [1, 2] ∧
    (∀ p : Ptr, (fun _ : Ptr => 2 ^ 63) p < 2 ^ 64) ∧
    ([1, 2].map (fun _ : Ptr => 2 ^ 63)).sum = 2 ^ 64 ∧
    (DKAllocatorChain.Cleanup 64 (fun _ => 2 ^ 63) 3 twoWorld).map Prod.snd = .ok 0 ∧
    ¬ ∃ w1, DKAllocatorChain.Cleanup 64 (fun _ => 2 ^ 63) 3 twoWorld =
        .ok (w1, ([1, 2].map (fun _ : Ptr => 2 ^ 63)).sum) := by
  have hrun : (DKAllocatorChain.Cleanup 64 (fun _ => 2 ^ 63) 3 twoWorld).map Prod.snd = .ok 0 :=
    rfl
  refine ⟨by decide, by decide, fun _ => by norm_num, by norm_num, hrun, ?_⟩
  rintro ⟨w1, h1⟩
  rw [h1] at hrun
  simp [Except.map] at hrun

/-! ## Lifetime tokens -/

theorem maintainer_construct_live {w : World} (hlive : Live w) :
    Maintainer.construct w = .ok { w with refCount := (w.refCount + 1) % RefCountMod } := by
  unfold Maintainer.construct
  simp only [Chain.Instance_of_live hlive, Chain.IncrementRef]

theorem maintainer_destruct_keep {w : World} {fuel : Nat} (hlive : Live w)
    (hne : (w.refCount + RefCountMod - 1) % RefCountMod ≠ 0) :
    Maintainer.destruct fuel w =
      .ok { w with refCount := (w.refCount + RefCountMod - 1) % RefCountMod } := by
  unfold Maintainer.destruct
  simp only [Chain.Instance_of_live hlive, Chain.DecrementRef, hne, if_false]

theorem maintainer_destruct_last {w : World} {L : List Ptr} {fuel : Nat} (hlive : Live w)
    (hL : IsChain w.next w.first L) (hfuel : L.length < fuel)
    (hzero : (w.refCount + RefCountMod - 1) % RefCountMod = 0) :
    ∃ w1, Maintainer.destruct fuel w = .ok w1 ∧ w1.holderInit = true ∧
      w1.instanceNonNull = false ∧ w1.first = none ∧ w1.refCount = 0 ∧
      w1.log = w.log ++ L.reverse.map Event.destroyed ++
        [Event.destroyTable, Event.clearInstance] := by
  have hlive1 : Live { w with refCount := 0 } := ⟨hlive.1, hlive.2⟩
  obtain ⟨w1, h1, hh, hi, hf, hr, hg⟩ := @delete_spec { w with refCount := 0 } L fuel hlive1 hL hfuel
  refine ⟨w1, ?_, hh, hi, hf, hr, hg⟩
  unfold Maintainer.destruct
  simp only [Chain.Instance_of_live hlive, Chain.DecrementRef, hzero, if_true]
  exact h1

theorem decrement_eq_zero_iff {c : Nat} (hc : c < RefCountMod) :
    (c + RefCountMod - 1) % RefCountMod = 0 ↔ c = 1 := by
  unfold RefCountMod at *
  omega

/-- C10 (as amended): on a live registry with reference count `c` (an
`unsigned int`), constructing a token returns, sets the count to
`(c + 1) mod 2 ^ 32` and does not tear the registry down; destroying a token
returns, sets the count to `(c - 1) mod 2 ^ 32`, and runs the registry destructor
if and only if the count before the destruction was exactly 1, that is,
`DecrementRef` returned 0. -/
theorem C10_single_step_token_semantics
    (w : World) (L : List Ptr) (fuel : Nat)
    (hlive : Live w) (hL : IsChain w.next w.first L) (hfuel : L.length < fuel)
    (hc : w.refCount < RefCountMod) :
    (∃ w1, Maintainer.construct w = .ok w1 ∧
      w1.refCount = (w.refCount + 1) % RefCountMod ∧ Live w1 ∧
      teardowns w1 = teardowns w) ∧
    (∃ w2, Maintainer.destruct fuel w = .ok w2 ∧
      w2.refCount = (w.refCount + RefCountMod - 1) % RefCountMod ∧
      ((Chain.DecrementRef w).2 = 0 ↔ w.refCount = 1) ∧
      (w.refCount = 1 → w2.instanceNonNull = false ∧ teardowns w2 = teardowns w + 1 ∧
        w2.log = w.log ++ L.reverse.map Event.destroyed ++
          [Event.destroyTable, Event.clearInstance]) ∧
      (w.refCount ≠ 1 → Live w2 ∧ teardowns w2 = teardowns w ∧ w2.log = w.log)) := by
  constructor
  · have h := maintainer_construct_live hlive
    generalize (w.refCount + 1) % RefCountMod = r at h ⊢
    refine ⟨{ w with refCount := r }, h, rfl, ⟨hlive.1, hlive.2⟩, ?_⟩
    show teardowns { w with refCount := r } = teardowns w
    unfold teardowns
    rfl
  · have hiff := decrement_eq_zero_iff hc
    have hdec : (Chain.DecrementRef w).2 = 0 ↔ w.refCount = 1 := by
      simpa only [Chain.DecrementRef] using hiff
    by_cases h1 : w.refCount = 1
    · have hz := hiff.mpr h1
      obtain ⟨w2, h2, _, hi, _, hr, hg⟩ := maintainer_destruct_last hlive hL hfuel hz
      refine ⟨w2, h2, by rw [hr, hz], hdec, ?_, fun hne => absurd h1 hne⟩
      intro _
      refine ⟨hi, ?_, hg⟩
      simp [teardowns, hg, List.count_append, List.count_eq_zero]
    · have hnz : (w.refCount + RefCountMod - 1) % RefCountMod ≠ 0 := fun h => h1 (hiff.mp h)
      have hrun := @maintainer_destruct_keep w fuel hlive hnz
      generalize (w.refCount + RefCountMod - 1) % RefCountMod = r at hrun ⊢
      refine ⟨{ w with refCount := r }, hrun, rfl, hdec, fun h => absurd h h1, ?_⟩
      intro _
      refine ⟨⟨hlive.1, hlive.2⟩, ?_, ?_⟩
      · show teardowns { w with refCount := r } = teardowns w
        unfold teardowns
        rfl
      · show w.log = w.log
        rfl

/-- Witness of C10 (as amended): on the chain `1 → 2 → 3` held by one token
(count 1) the destruction of the token takes the count to 0 and tears the
registry down, destroying 3, 2, 1; held by two tokens (count 2) it takes the
count to 1 and leaves the registry alive. -/
theorem C10_single_step_token_semantics_witness :
    ((Live heldWorld ∧ IsChain heldWorld.next heldWorld.first [1, 2, 3] ∧
      heldWorld.refCount < RefCountMod ∧ heldWorld.refCount = 1) ∧
     ((∃ w1, Maintainer.construct heldWorld = .ok w1 ∧
        w1.refCount = (heldWorld.refCount + 1) % RefCountMod ∧ Live w1 ∧
        teardowns w1 = teardowns heldWorld) ∧
      (∃ w2, Maintainer.destruct 4 heldWorld = .ok w2 ∧
        w2.refCount = (heldWorld.refCount + RefCountMod - 1) % RefCountMod ∧
        ((Chain.DecrementRef heldWorld).2 = 0 ↔ heldWorld.refCount = 1) ∧
        (heldWorld.refCount = 1 → w2.instanceNonNull = false ∧
          teardowns w2 = teardowns heldWorld + 1 ∧
          w2.log = heldWorld.log ++ [1, 2, 3].reverse.map Event.destroyed ++
            [Event.destroyTable, Event.clearInstance]) ∧
        (heldWorld.refCount ≠ 1 → Live w2 ∧ teardowns w2 = teardowns heldWorld ∧
          w2.log = heldWorld.log)))) ∧
    ((Live sharedWorld ∧ IsChain sharedWorld.next sharedWorld.first [1, 2, 3] ∧
      sharedWorld.refCount < RefCountMod ∧ sharedWorld.refCount ≠ 1) ∧
     ((∃ w1, Maintainer.construct sharedWorld = .ok w1 ∧
        w1.refCount = (sharedWorld.refCount + 1) % RefCountMod ∧ Live w1 ∧
        teardowns w1 = teardowns sharedWorld) ∧
      (∃ w2, Maintainer.destruct 4 sharedWorld = .ok w2 ∧
        w2.refCount = (sharedWorld.refCount + RefCountMod - 1) % RefCountMod ∧
        ((Chain.DecrementRef sharedWorld).2 = 0 ↔ sharedWorld.refCount = 1) ∧
        (sharedWorld.refCount = 1 → w2.instanceNonNull = false ∧
          teardowns w2 = teardowns sharedWorld + 1 ∧
          w2.log = sharedWorld.log ++ [1, 2, 3].reverse.map Event.destroyed ++
            [Event.destroyTable, Event.clearInstance]) ∧
        (sharedWorld.refCount ≠ 1 → Live w2 ∧ teardowns w2 = teardowns sharedWorld ∧
          w2.log = sharedWorld.log)))) ∧
    (∃ w2, Maintainer.destruct 4 heldWorld = .ok w2 ∧ w2.refCount = 0 ∧
      w2.instanceNonNull = false ∧ teardowns w2 = teardowns heldWorld + 1 ∧
      w2.log = heldWorld.log ++ [Event.destroyed 3, Event.destroyed 2, Event.destroyed 1,
        Event.destroyTable, Event.clearInstance]) ∧
    (∃ w2, Maintainer.destruct 4 sharedWorld = .ok w2 ∧ w2.refCount = 1 ∧ Live w2 ∧
      teardowns w2 = teardowns sharedWorld ∧ w2.log = sharedWorld.log) :=
  have hheld := C10_single_step_token_semantics heldWorld [1, 2, 3] 4 (by decide) (by decide)
    (by decide) (by decide)
  have hshared := C10_single_step_token_semantics sharedWorld [1, 2, 3] 4 (by decide)
    (by decide) (by decide) (by decide)
  ⟨⟨⟨by decide, by decide, by decide, rfl⟩, hheld⟩,
   ⟨⟨by decide, by decide, by decide, by decide⟩, hshared⟩,
   (by
     obtain ⟨w2, hrun, hcnt, _, hdown, _⟩ := hheld.2
     obtain ⟨hi, ht, hg⟩ := hdown rfl
     exact ⟨w2, hrun, hcnt, hi, ht, hg⟩),
   (by
     obtain ⟨w2, hrun, hcnt, _, _, hkeep⟩ := hshared.2
     obtain ⟨hl, ht, hg⟩ := hkeep (by decide)
     exact ⟨w2, hrun, hcnt, hl, ht, hg⟩)⟩

/-- C10 fails as stated: with the count at `2 ^ 32 - 1` a token construction
sets it to 0, not to `2 ^ 32`; and with the count at 0 a token destruction sets
it to `2 ^ 32 - 1`, not to `-1`. -/
theorem C10_count_wraps_counterexample :
    Live maxCountWorld ∧ maxCountWorld.refCount = 4294967295 ∧
    (∃ w1, Maintainer.construct maxCountWorld = .ok w1 ∧ w1.refCount = 0 ∧
      w1.refCount ≠ maxCountWorld.refCount + 1) ∧
    Live freshWorld ∧ freshWorld.refCount = 0 ∧
    (∃ w2, Maintainer.destruct 1 freshWorld = .ok w2 ∧ w2.refCount = 4294967295 ∧
      (w2.refCount : Int) ≠ (freshWorld.refCount : Int) - 1) := by
  refine ⟨by decide, rfl, ⟨_, rfl, rfl, by decide⟩, by decide, rfl, ⟨_, rfl, rfl, by decide⟩⟩

theorem Chain.Instance_of_torn {w : World} (h1 : w.holderInit = true)
    (h2 : w.instanceNonNull = false) : Chain.Instance w = (w, false) := by
  simp [Chain.Instance, h1, h2]

/-- C6 (as amended): after the registry has been torn down by the destruction of
the last token, `Chain::Instance` creates nothing and returns `NULL` (the static
holder is initialised once only and `Chain::instance` stays `NULL`), so the
construction of a new token dereferences a null pointer instead of yielding a
live registry. -/
theorem C6_no_recreation_after_teardown
    (w : World) (L : List Ptr) (fuel : Nat)
    (hlive : Live w) (hL : IsChain w.next w.first L) (hfuel : L.length < fuel)
    (hone : w.refCount = 1) :
    ∃ w1, Maintainer.destruct fuel w = .ok w1 ∧ teardowns w1 = teardowns w + 1 ∧
      Chain.Instance w1 = (w1, false) ∧
      Maintainer.construct w1 = .error Fault.nullDeref := by
  have hz : (w.refCount + RefCountMod - 1) % RefCountMod = 0 := by
    rw [hone]; rfl
  obtain ⟨w1, h1, hh, hi, _, _, hg⟩ := maintainer_destruct_last hlive hL hfuel hz
  have hinst := Chain.Instance_of_torn hh hi
  refine ⟨w1, h1, ?_, hinst, ?_⟩
  · simp [teardowns, hg, List.count_append, List.count_eq_zero]
  · unfold Maintainer.construct
    simp only [hinst]

/-- Witness of C6 (as amended): the chain `1 → 2 → 3` held by one token. -/
theorem C6_no_recreation_after_teardown_witness :
    (Live { threeWorld with refCount := 1 } ∧
      IsChain threeWorld.next threeWorld.first [1, 2, 3]) ∧
    ∃ w1, Maintainer.destruct 4 { threeWorld with refCount := 1 } = .ok w1 ∧
      teardowns w1 = teardowns { threeWorld with refCount := 1 } + 1 ∧
      Chain.Instance w1 = (w1, false) ∧
      Maintainer.construct w1 = .error Fault.nullDeref :=
  ⟨⟨by decide, by decide⟩,
   C6_no_recreation_after_teardown { threeWorld with refCount := 1 } [1, 2, 3] 4
    (by decide) (by decide) (by decide) rfl⟩

/-- C6 fails as stated: from program start, construct a token (count 1) and
destroy it (teardown); afterwards `Chain::Instance` returns `NULL`, a token
construction faults, and so no token construction yields a live registry with
count 1 and an empty chain. -/
theorem C6_recreation_counterexample :
    Maintainer.construct (World.start (fun _ => none)) = .ok oneTokenWorld ∧
    oneTokenWorld.refCount = 1 ∧
    Maintainer.destruct 1 oneTokenWorld = .ok tornWorld ∧
    (Chain.Instance tornWorld).2 = false ∧
    Maintainer.construct tornWorld = .error Fault.nullDeref ∧
    ¬ ∃ w3, Maintainer.construct tornWorld = .ok w3 ∧ Live w3 ∧ w3.refCount = 1 ∧
        w3.first = none := by
  have herr : Maintainer.construct tornWorld = .error Fault.nullDeref := rfl
  refine ⟨rfl, rfl, rfl, rfl, herr, ?_⟩
  rintro ⟨w3, h3, _⟩
  rw [herr] at h3
  exact absurd h3 (by simp)

theorem runTokens_snoc {fuel : Nat} (op : TokenOp) :
    ∀ (pre : List TokenOp) (w wk : World), runTokens fuel pre w = .ok wk →
      runTokens fuel (pre ++ [op]) w = TokenOp.step fuel op wk := by
  intro pre
  induction pre with
  | nil =>
    intro w wk h
    have hw : w = wk := by
      simp only [runTokens] at h
      exact Except.ok.inj h
    subst hw
    simp only [List.nil_append, runTokens]
    cases TokenOp.step fuel op w <;> rfl
  | cons a pre ih =>
    intro w wk h
    simp only [runTokens, List.cons_append] at h ⊢
    cases hstep : TokenOp.step fuel a w with
    | error e => rw [hstep] at h; exact absurd h (by simp)
    | ok w1 =>
      rw [hstep] at h
      exact ih w1 wk h

theorem tokenOps_length (ops : List TokenOp) :
    ops.length = ops.count TokenOp.construct + ops.count TokenOp.destruct := by
  induction ops with
  | nil => rfl
  | cons a ops ih =>
    cases a <;> simp [List.count_cons, ih] <;> omega

theorem take_succ_snoc {ops : List TokenOp} {k : Nat} (hk : k < ops.length) :
    ∃ op, ops[k]? = some op ∧ ops.take (k + 1) = ops.take k ++ [op] := by
  refine ⟨ops[k], List.getElem?_eq_getElem hk, ?_⟩
  rw [List.take_succ, List.getElem?_eq_getElem hk]
  rfl

/-- One token operation from a state related to the start state by `TokenInv`,
when the count is still positive afterwards. -/
theorem tokenInv_step {fuel : Nat} {w0 wk : World} {L : List Ptr} {pre : List TokenOp}
    {op : TokenOp} (hL : IsChain w0.next w0.first L) (hfuel : L.length < fuel)
    (hrun : runTokens fuel pre w0 = .ok wk) (hinv : TokenInv w0 pre wk)
    (hop : op = TokenOp.destruct → 0 < wk.refCount)
    (hpos : countPositiveAfter fuel w0 (pre ++ [op]) = true) :
    ∃ wk1, runTokens fuel (pre ++ [op]) w0 = .ok wk1 ∧ TokenInv w0 (pre ++ [op]) wk1 ∧
      0 < wk1.refCount := by
  obtain ⟨hlive, hfst, hnxt, hlog, hlt, hbal⟩ := hinv
  have hsnoc := runTokens_snoc op pre w0 wk hrun
  unfold countPositiveAfter at hpos
  rw [hsnoc] at hpos ⊢
  cases op with
  | construct =>
    have hstep := maintainer_construct_live hlive
    simp only [TokenOp.step, hstep] at hpos ⊢
    have hp : 0 < (wk.refCount + 1) % RefCountMod := by simpa using hpos
    have hval : (wk.refCount + 1) % RefCountMod = wk.refCount + 1 := by
      unfold RefCountMod at *
      omega
    have hrlt : (wk.refCount + 1) % RefCountMod < RefCountMod :=
      Nat.mod_lt _ (by unfold RefCountMod; norm_num)
    generalize (wk.refCount + 1) % RefCountMod = r at hp hval hrlt ⊢
    refine ⟨{ wk with refCount := r }, rfl, ⟨⟨hlive.1, hlive.2⟩, hfst, hnxt, hlog, ?_, ?_⟩, hp⟩
    · exact hrlt
    · show (pre ++ [TokenOp.construct]).count TokenOp.construct
        = (pre ++ [TokenOp.construct]).count TokenOp.destruct + r
      simp only [List.count_append, List.count_singleton]
      simp
      omega
  | destruct =>
    have hc := hop rfl
    have hLk : IsChain wk.next wk.first L := by rw [hnxt, hfst]; exact hL
    by_cases h1 : wk.refCount = 1
    · have hz : (wk.refCount + RefCountMod - 1) % RefCountMod = 0 := by rw [h1]; rfl
      obtain ⟨w1, hd, _, _, _, hr, _⟩ := maintainer_destruct_last hlive hLk hfuel hz
      simp only [TokenOp.step, hd, hr] at hpos
      exact absurd hpos (by simp)
    · have hval : (wk.refCount + RefCountMod - 1) % RefCountMod = wk.refCount - 1 := by
        unfold RefCountMod at *
        omega
      have hnz : (wk.refCount + RefCountMod - 1) % RefCountMod ≠ 0 := by
        rw [hval]; omega
      have hstep := @maintainer_destruct_keep wk fuel hlive hnz
      generalize (wk.refCount + RefCountMod - 1) % RefCountMod = r at hstep hval ⊢
      simp only [TokenOp.step, hstep]
      refine ⟨{ wk with refCount := r }, rfl, ⟨⟨hlive.1, hlive.2⟩, hfst, hnxt, hlog, ?_, ?_⟩, ?_⟩
      · show r < RefCountMod
        omega
      · show (pre ++ [TokenOp.destruct]).count TokenOp.construct
          = (pre ++ [TokenOp.destruct]).count TokenOp.destruct + r
        simp only [List.count_append, List.count_singleton]
        simp
        omega
      · show 0 < r
        omega

/-- Along a sequence that starts with a construction and keeps the count
positive, every proper prefix keeps the registry alive. -/
theorem tokenInv_prefix {fuel : Nat} {w0 : World} {L : List Ptr} {ops : List TokenOp}
    (hlive : Live w0) (hL : IsChain w0.next w0.first L) (hfuel : L.length < fuel)
    (hzero : w0.refCount = 0) (hfirst : ops.head? = some TokenOp.construct)
    (hpos : ∀ k, 0 < k → k < ops.length → countPositiveAfter fuel w0 (ops.take k) = true) :
    ∀ k, k < ops.length →
      ∃ wk, runTokens fuel (ops.take k) w0 = .ok wk ∧ TokenInv w0 (ops.take k) wk ∧
        (0 < k → 0 < wk.refCount) := by
  intro k
  induction k with
  | zero =>
    intro _
    refine ⟨w0, by simp [runTokens], ⟨hlive, rfl, rfl, rfl, ?_, ?_⟩, fun h => absurd h (by decide)⟩
    · rw [hzero]; decide
    · simp [hzero]
  | succ k ih =>
    intro hk
    obtain ⟨wk, hrun, hinv, hposk⟩ := ih (by omega)
    obtain ⟨op, hget, htake⟩ := take_succ_snoc (show k < ops.length by omega)
    have hop : op = TokenOp.destruct → 0 < wk.refCount := by
      intro hd
      by_cases hk0 : k = 0
      · subst hk0
        rw [List.head?_eq_getElem?, hget] at hfirst
        rw [hd] at hfirst
        exact absurd hfirst (by simp)
      · exact hposk (by omega)
    have hp := hpos (k + 1) (by omega) hk
    rw [htake] at hp ⊢
    obtain ⟨wk1, h1, h2, h3⟩ := tokenInv_step hL hfuel hrun hinv hop hp
    exact ⟨wk1, h1, h2, fun _ => h3⟩

/-- C5: reference counting over token sequences.  Start from a live registry
with count 0 and run an interleaving of `N ≥ 1` token constructions and `N`
token destructions: a token is destroyed only after it has been constructed, so
every prefix has at least as many constructions as destructions.  If the count
is positive after every non-empty proper prefix (after the empty prefix it is
the initial 0), then after every proper prefix the registry exists (instance
pointer set, no teardown so far), and the whole sequence ends with a
destruction that takes the count to 0 and tears the registry down, for the
first and only time. -/
theorem C5_reference_counting_over_sequences
    (w0 : World) (L : List Ptr) (fuel : Nat) (ops : List TokenOp) (N : Nat)
    (hlive : Live w0) (hL : IsChain w0.next w0.first L) (hfuel : L.length < fuel)
    (hzero : w0.refCount = 0) (hN : 1 ≤ N)
    (hcons : ops.count TokenOp.construct = N) (hdes : ops.count TokenOp.destruct = N)
    (hreal : ∀ k, (ops.take k).count TokenOp.destruct ≤ (ops.take k).count TokenOp.construct)
    (hpos : ∀ k, 0 < k → k < ops.length → countPositiveAfter fuel w0 (ops.take k) = true) :
    (∀ k, k < ops.length →
      ∃ wk, runTokens fuel (ops.take k) w0 = .ok wk ∧ Live wk ∧
        teardowns wk = teardowns w0) ∧
    (∃ w1, runTokens fuel ops w0 = .ok w1 ∧ w1.instanceNonNull = false ∧
      w1.refCount = 0 ∧ teardowns w1 = teardowns w0 + 1 ∧
      ops.getLast? = some TokenOp.destruct) := by
  have hlen : ops.length = N + N := by rw [tokenOps_length, hcons, hdes]
  have hfirst : ops.head? = some TokenOp.construct := by
    cases ops with
    | nil => simp only [List.length_nil] at hlen; omega
    | cons a t =>
      cases a with
      | construct => rfl
      | destruct =>
        have h1 := hreal 1
        simp at h1
  have hpre := tokenInv_prefix hlive hL hfuel hzero hfirst hpos
  constructor
  · intro k hk
    obtain ⟨wk, hrun, hinv, _⟩ := hpre k hk
    obtain ⟨hl, _, _, hlog, _, _⟩ := hinv
    exact ⟨wk, hrun, hl, by simp only [teardowns, hlog]⟩
  · obtain ⟨m, hm⟩ : ∃ m, ops.length = m + 1 := ⟨ops.length - 1, by omega⟩
    obtain ⟨wk, hrun, hinv, hposk⟩ := hpre m (by omega)
    obtain ⟨op, _, htake⟩ := take_succ_snoc (show m < ops.length by omega)
    have hall : ops = ops.take m ++ [op] := by
      rw [← htake, ← hm, List.take_length]
    obtain ⟨hl, hfst, hnxt, hlog, hlt, hbal⟩ := hinv
    have hc : 0 < wk.refCount := hposk (by omega)
    have hcons1 : (ops.take m ++ [op]).count TokenOp.construct = N := by rw [← hall]; exact hcons
    have hdes1 : (ops.take m ++ [op]).count TokenOp.destruct = N := by rw [← hall]; exact hdes
    simp only [List.count_append, List.count_singleton] at hcons1 hdes1
    cases op with
    | construct =>
      simp at hcons1 hdes1
      omega
    | destruct =>
      simp at hcons1 hdes1
      have hone : wk.refCount = 1 := by omega
      have hz : (wk.refCount + RefCountMod - 1) % RefCountMod = 0 := by rw [hone]; rfl
      have hLk : IsChain wk.next wk.first L := by rw [hnxt, hfst]; exact hL
      obtain ⟨w1, hd, _, hi, _, hr, hg⟩ := maintainer_destruct_last hl hLk hfuel hz
      have hsnoc := runTokens_snoc TokenOp.destruct (ops.take m) w0 wk hrun
      rw [← hall] at hsnoc
      refine ⟨w1, ?_, hi, hr, ?_, ?_⟩
      · rw [hsnoc]; exact hd
      · simp [teardowns, hg, hlog, List.count_append, List.count_eq_zero]
      · rw [hall, List.getLast?_concat]

/-- Witness of C5: on the chain `1 → 2 → 3` with count 0, two tokens are
constructed and then destroyed. -/
theorem C5_reference_counting_over_sequences_witness :
    (Live threeWorld ∧ IsChain threeWorld.next threeWorld.first [1, 2, 3] ∧
      threeWorld.refCount = 0 ∧
      (∀ k, ([TokenOp.construct, TokenOp.construct, TokenOp.destruct,
            TokenOp.destruct].take k).count TokenOp.destruct ≤
          ([TokenOp.construct, TokenOp.construct, TokenOp.destruct,
            TokenOp.destruct].take k).count TokenOp.construct) ∧
      (∀ k, 0 < k →
        k < [TokenOp.construct, TokenOp.construct, TokenOp.destruct,
          TokenOp.destruct].length →
        countPositiveAfter 4 threeWorld
          ([TokenOp.construct, TokenOp.construct, TokenOp.destruct,
            TokenOp.destruct].take k) = true)) ∧
    ((∀ k, k < [TokenOp.construct, TokenOp.construct, TokenOp.destruct,
          TokenOp.destruct].length →
      ∃ wk, runTokens 4 ([TokenOp.construct, TokenOp.construct, TokenOp.destruct,
          TokenOp.destruct].take k) threeWorld = .ok wk ∧
        Live wk ∧ teardowns wk = teardowns threeWorld) ∧
    (∃ w1, runTokens 4 [TokenOp.construct, TokenOp.construct, TokenOp.destruct,
          TokenOp.destruct] threeWorld = .ok w1 ∧
      w1.instanceNonNull = false ∧ w1.refCount = 0 ∧
      teardowns w1 = teardowns threeWorld + 1 ∧
      [TokenOp.construct, TokenOp.construct, TokenOp.destruct,
        TokenOp.destruct].getLast? = some TokenOp.destruct)) :=
  have hreal : ∀ k, ([TokenOp.construct, TokenOp.construct, TokenOp.destruct,
        TokenOp.destruct].take k).count TokenOp.destruct ≤
      ([TokenOp.construct, TokenOp.construct, TokenOp.destruct,
        TokenOp.destruct].take k).count TokenOp.construct := by
    intro k
    match k with
    | 0 => decide
    | 1 => decide
    | 2 => decide
    | 3 => decide
    | k + 4 => simp
  have hpos : ∀ k, 0 < k →
      k < [TokenOp.construct, TokenOp.construct, TokenOp.destruct,
        TokenOp.destruct].length →
      countPositiveAfter 4 threeWorld
        ([TokenOp.construct, TokenOp.construct, TokenOp.destruct,
          TokenOp.destruct].take k) = true := by
    intro k h1 h2
    simp only [List.length_cons, List.length_nil] at h2
    interval_cases k <;> rfl
  ⟨⟨by decide, by decide, rfl, hreal, hpos⟩,
   C5_reference_counting_over_sequences threeWorld [1, 2, 3] 4
    [TokenOp.construct, TokenOp.construct, TokenOp.destruct, TokenOp.destruct] 2
    (by decide) (by decide) (by decide) rfl (by decide) rfl rfl hreal hpos⟩

/-! ## Reachable states -/

theorem Chain.Instance_snd (w : World) :
    (Chain.Instance w).2 = (Chain.Instance w).1.instanceNonNull := by
  unfold Chain.Instance
  split <;> rfl

theorem Chain.Instance_refCount_zero {w : World} (h : w.refCount = 0) :
    (Chain.Instance w).1.refCount = 0 := by
  unfold Chain.Instance
  split
  · exact h
  · rfl

theorem Chain.Instance_eq_true {w c : World} (h : Chain.Instance w = (c, true)) :
    c.instanceNonNull = true := by
  have hs := Chain.Instance_snd w
  rw [h] at hs
  exact hs.symm

theorem Chain.Instance_eq_refCount {w c : World} {b : Bool} (h : Chain.Instance w = (c, b))
    (hz : w.refCount = 0) : c.refCount = 0 := by
  have hs := Chain.Instance_refCount_zero hz
  rw [h] at hs
  exact hs

theorem construct_ok_instance {fuel : Nat} {p : Ptr} {w w1 : World}
    (h : DKAllocatorChain.construct fuel p w = .ok w1) : w1.instanceNonNull = true := by
  unfold DKAllocatorChain.construct at h
  dsimp only at h
  split at h
  · exact absurd h (by simp)
  · rename_i c heq
    have hc := Chain.Instance_eq_true heq
    split at h
    · split at h
      · exact absurd h (by simp)
      · cases h; exact hc
    · cases h; exact hc

theorem destruct_ok_instance {fuel : Nat} {p : Ptr} {w w1 : World}
    (h : DKAllocatorChain.destruct fuel p w = .ok w1) :
    w1.instanceNonNull = true ∧ (w.refCount = 0 → w1.refCount = 0) := by
  unfold DKAllocatorChain.destruct at h
  split at h
  · exact absurd h (by simp)
  · rename_i c heq
    have hc := Chain.Instance_eq_true heq
    have hr := @Chain.Instance_eq_refCount w c true heq
    split at h
    · cases h; exact ⟨hc, hr⟩
    · split at h
      · exact absurd h (by simp)
      · cases h; exact ⟨hc, hr⟩

theorem cleanup_ok_instance {bits : Nat} {Purge : Ptr → Nat} {fuel : Nat} {w : World}
    {r : World × Nat} (h : DKAllocatorChain.Cleanup bits Purge fuel w = .ok r) :
    r.1.instanceNonNull = true := by
  unfold DKAllocatorChain.Cleanup at h
  split at h
  · exact absurd h (by simp)
  · rename_i c heq
    have hc := Chain.Instance_eq_true heq
    split at h
    · exact absurd h (by simp)
    · cases h; exact hc

theorem drain_refCount_zero {fuel : Nat} :
    ∀ (n : Nat) (w w1 : World), Chain.drain fuel n w = .ok w1 → w.refCount = 0 →
      w1.refCount = 0 := by
  intro n
  induction n with
  | zero => intro w w1 h _; simp [Chain.drain] at h
  | succ n ih =>
    intro w w1 h hz
    simp only [Chain.drain] at h
    split at h
    · cases h; exact hz
    · split at h
      · exact absurd h (by simp)
      · split at h
        · exact absurd h (by simp)
        · rename_i w2 hd
          exact ih w2 w1 h ((destruct_ok_instance hd).2 hz)

theorem delete_ok_refCount {fuel : Nat} {w w1 : World} (h : Chain.delete fuel w = .ok w1)
    (hz : w.refCount = 0) : w1.refCount = 0 := by
  unfold Chain.delete at h
  split at h
  · exact absurd h (by simp)
  · rename_i w2 hd
    cases h
    exact drain_refCount_zero fuel w w2 hd hz

theorem maintainer_construct_ok_instance {w w1 : World}
    (h : Maintainer.construct w = .ok w1) : w1.instanceNonNull = true := by
  unfold Maintainer.construct at h
  split at h
  · exact absurd h (by simp)
  · rename_i c heq
    have hc := Chain.Instance_eq_true heq
    simp only [Chain.IncrementRef] at h
    cases h
    exact hc

theorem maintainer_destruct_ok {fuel : Nat} {w w1 : World}
    (h : Maintainer.destruct fuel w = .ok w1) :
    w1.instanceNonNull = true ∨ w1.refCount = 0 := by
  unfold Maintainer.destruct at h
  split at h
  · exact absurd h (by simp)
  · rename_i c heq
    have hc := Chain.Instance_eq_true heq
    simp only [Chain.DecrementRef] at h
    generalize (c.refCount + RefCountMod - 1) % RefCountMod = r at h
    by_cases hz : r = 0
    · simp only [hz, if_true] at h
      right
      exact @delete_ok_refCount fuel { c with refCount := 0 } w1 h rfl
    · simp only [hz, if_false] at h
      cases h
      left
      exact hc

/-- One operation keeps "a null instance pointer goes with a zero count". -/
theorem step_invariant {bits : Nat} {Purge : Ptr → Nat} {fuel : Nat} {op : Op} {w w1 : World}
    (hinv : w.instanceNonNull = false → w.refCount = 0)
    (h : Op.step bits Purge fuel op w = .ok w1) :
    w1.instanceNonNull = false → w1.refCount = 0 := by
  intro hnull
  cases op with
  | getInstance =>
    simp only [Op.step] at h
    cases h
    unfold Chain.Instance at hnull ⊢
    split
    · rename_i hh
      simp only [hh, if_true] at hnull
      exact hinv hnull
    · rfl
  | construct p =>
    rw [construct_ok_instance h] at hnull
    exact absurd hnull (by simp)
  | destruct p =>
    rw [(destruct_ok_instance h).1] at hnull
    exact absurd hnull (by simp)
  | tokenConstruct =>
    rw [maintainer_construct_ok_instance h] at hnull
    exact absurd hnull (by simp)
  | tokenDestruct =>
    rcases maintainer_destruct_ok h with h1 | h1
    · rw [h1] at hnull
      exact absurd hnull (by simp)
    · exact h1
  | cleanup =>
    simp only [Op.step] at h
    split at h
    · simp at h
    · rename_i r hc
      cases h
      rw [cleanup_ok_instance hc] at hnull
      exact absurd hnull (by simp)

theorem run_invariant {bits : Nat} {Purge : Ptr → Nat} {fuel : Nat} :
    ∀ (ops : List Op) (w w1 : World), (w.instanceNonNull = false → w.refCount = 0) →
      run bits Purge fuel ops w = .ok w1 → (w1.instanceNonNull = false → w1.refCount = 0) := by
  intro ops
  induction ops with
  | nil =>
    intro w w1 hinv h
    simp only [run] at h
    cases h
    exact hinv
  | cons op ops ih =>
    intro w w1 hinv h
    simp only [run] at h
    split at h
    · simp at h
    · rename_i w2 hstep
      exact ih w2 w1 (step_invariant hinv hstep) h

/-- C7 (as amended): in every state reached from program start by any sequence
of `Chain::Instance` calls, provider constructions and destructions, token
constructions and destructions and cleanups, a reference count above zero
implies that the instance pointer is not `NULL` (a `NULL` instance pointer goes
with a zero count, the count of the start state and of a torn-down registry
being zero). -/
theorem C7_positive_count_implies_instance
    (mem : Ptr → Option Ptr) (bits : Nat) (Purge : Ptr → Nat) (fuel : Nat) (ops : List Op)
    (w : World) (hrun : run bits Purge fuel ops (World.start mem) = .ok w) :
    0 < w.refCount → w.instanceNonNull = true := by
  intro hpos
  have hinv := run_invariant ops (World.start mem) w (fun _ => rfl) hrun
  cases hi : w.instanceNonNull with
  | true => rfl
  | false =>
    have := hinv hi
    omega

/-- Witness of C7 (as amended): after a provider and a token have been
constructed the count is 1 and the instance pointer is set. -/
theorem C7_positive_count_implies_instance_witness :
    ∃ w, run 64 (fun _ => 0) 2 [Op.construct 1, Op.tokenConstruct] (World.start (fun _ => none))
        = .ok w ∧ w.refCount = 1 ∧ (0 < w.refCount → w.instanceNonNull = true) :=
  ⟨_, rfl, rfl,
   C7_positive_count_implies_instance (fun _ => none) 64 (fun _ => 0) 2
    [Op.construct 1, Op.tokenConstruct] _ rfl⟩

/-- C7 fails as stated: when the first provider registers at program start the
registry is created lazily, and in the state reached the instance pointer is
not `NULL` while the reference count is 0. -/
theorem C7_lazy_creation_counterexample :
    ∃ w, run 64 (fun _ => 0) 1 [Op.construct 1] (World.start (fun _ => none)) = .ok w ∧
      w.instanceNonNull = true ∧ w.refCount = 0 ∧
      ¬ (w.instanceNonNull = true ↔ 0 < w.refCount) := by
  refine ⟨_, rfl, rfl, rfl, ?_⟩
  intro h
  have := h.mp rfl
  exact absurd this (by decide)

theorem run_provider_ops {bits : Nat} {Purge : Ptr → Nat} {fuel : Nat} :
    ∀ (ops : List Op) (alive : Ptr → Bool) (w : World) (L : List Ptr), Live w →
      IsChain w.next w.first L → (∀ p, p ∈ L ↔ alive p = true) →
      validProviderOps alive ops = true → L.length + ops.length < fuel →
      ∃ w1 L1, run bits Purge fuel ops w = .ok w1 ∧ Live w1 ∧ IsChain w1.next w1.first L1 ∧
        ∀ p, p ∈ L1 ↔ aliveAfter alive ops p = true := by
  intro ops
  induction ops with
  | nil =>
    intro alive w L hlive hL hmem _ _
    exact ⟨w, L, rfl, hlive, hL, hmem⟩
  | cons op ops ih =>
    intro alive w L hlive hL hmem hvalid hfuel
    simp only [List.length_cons] at hfuel
    cases op with
    | construct p =>
      simp only [validProviderOps, Bool.and_eq_true, Bool.not_eq_true'] at hvalid
      have hp : p ∉ L := by
        intro hin
        have := (hmem p).mp hin
        rw [hvalid.1] at this
        exact absurd this (by simp)
      obtain ⟨w1, h1, hl1, hc1, _, _⟩ := @construct_spec w L p fuel hlive hL hp (by omega)
      have hmem1 : ∀ q, q ∈ L ++ [p] ↔ Function.update alive p true q = true := by
        intro q
        by_cases hq : q = p
        · subst hq; simp
        · simp [Function.update_noteq hq, hq, hmem q]
      obtain ⟨w2, L2, h2, hl2, hc2, hm2⟩ :=
        ih (Function.update alive p true) w1 (L ++ [p]) hl1 hc1 hmem1 hvalid.2
          (by simp only [List.length_append, List.length_singleton]; omega)
      refine ⟨w2, L2, ?_, hl2, hc2, hm2⟩
      simp only [run, Op.step, h1, h2]
    | destruct p =>
      simp only [validProviderOps, Bool.and_eq_true] at hvalid
      have hp : p ∈ L := (hmem p).mpr hvalid.1
      obtain ⟨w1, h1, hl1, hc1, _, _⟩ := @destruct_spec w L p fuel hlive hL hp (by omega)
      have hnd : L.Nodup := IsChain.nodup hL
      have hmem1 : ∀ q, q ∈ L.erase p ↔ Function.update alive p false q = true := by
        intro q
        rw [List.Nodup.mem_erase_iff hnd]
        by_cases hq : q = p
        · subst hq; simp
        · simp [Function.update_noteq hq, hq, hmem q]
      have hlen : (L.erase p).length ≤ L.length := List.length_erase_le p L
      obtain ⟨w2, L2, h2, hl2, hc2, hm2⟩ :=
        ih (Function.update alive p false) w1 (L.erase p) hl1 hc1 hmem1 hvalid.2 (by omega)
      refine ⟨w2, L2, ?_, hl2, hc2, hm2⟩
      simp only [run, Op.step, h1, h2]
    | cleanup =>
      simp only [validProviderOps] at hvalid
      have h1 := @cleanup_spec bits Purge w L fuel hlive hL (by omega)
      have hl1 : Live { w with log := w.log ++ L.map Event.purged } := ⟨hlive.1, hlive.2⟩
      obtain ⟨w2, L2, h2, hl2, hc2, hm2⟩ :=
        ih alive { w with log := w.log ++ L.map Event.purged } L hl1 hL hmem hvalid (by omega)
      refine ⟨w2, L2, ?_, hl2, hc2, hm2⟩
      simp only [run, Op.step, h1, h2]
    | getInstance => simp [validProviderOps] at hvalid
    | tokenConstruct => simp [validProviderOps] at hvalid
    | tokenDestruct => simp [validProviderOps] at hvalid

/-- C8: chain well-formedness.  Start from a live registry with an empty chain
and run any sequence of provider constructions (each of a provider that is not
alive), provider destructions (each of a provider that is alive) and cleanups.
The run returns, and in the state reached the walk from the head visits a
duplicate-free list of providers and then reaches `NULL` (so there is no cycle),
and a provider is on that list exactly when it has been constructed and not yet
destroyed. -/
theorem C8_chain_well_formed
    (bits : Nat) (Purge : Ptr → Nat) (fuel : Nat) (ops : List Op) (w0 : World)
    (hlive : Live w0) (hempty : w0.first = none)
    (hvalid : validProviderOps (fun _ => false) ops = true) (hfuel : ops.length < fuel) :
    ∃ w1 L, run bits Purge fuel ops w0 = .ok w1 ∧ IsChain w1.next w1.first L ∧ L.Nodup ∧
      ∀ p, p ∈ L ↔ aliveAfter (fun _ => false) ops p = true := by
  have h0 : IsChain w0.next w0.first [] := hempty
  obtain ⟨w1, L, h1, _, hc, hm⟩ :=
    @run_provider_ops bits Purge fuel ops (fun _ => false) w0 [] hlive h0 (by simp) hvalid
      (by simp only [List.length_nil]; omega)
  exact ⟨w1, L, h1, hc, IsChain.nodup hc, hm⟩

/-- Witness of C8: construct 1, 2, 3, clean up, destroy 2, construct 4, destroy
1, construct 2 again. -/
theorem C8_chain_well_formed_witness :
    (Live freshWorld ∧ freshWorld.first = none ∧
      validProviderOps (fun _ => false)
        [Op.construct 1, Op.construct 2, Op.construct 3, Op.cleanup, Op.destruct 2,
          Op.construct 4, Op.destruct 1, Op.construct 2] = true) ∧
    ∃ w1 L, run 64 (fun p => p) 9
        [Op.construct 1, Op.construct 2, Op.construct 3, Op.cleanup, Op.destruct 2,
          Op.construct 4, Op.destruct 1, Op.construct 2] freshWorld = .ok w1 ∧
      IsChain w1.next w1.first L ∧ L.Nodup ∧
      ∀ p, p ∈ L ↔ aliveAfter (fun _ => false)
        [Op.construct 1, Op.construct 2, Op.construct 3, Op.cleanup, Op.destruct 2,
          Op.construct 4, Op.destruct 1, Op.construct 2] p = true :=
  ⟨⟨by decide, rfl, by decide⟩,
   C8_chain_well_formed 64 (fun p => p) 9
    [Op.construct 1, Op.construct 2, Op.construct 3, Op.cleanup, Op.destruct 2,
      Op.construct 4, Op.destruct 1, Op.construct 2] freshWorld (by decide) rfl (by decide)
    (by decide)⟩

/-! ## Round trip, purge order and wrap-around -/

theorem IsChain.head_eq {next : Ptr → Option Ptr} {h : Option Ptr} {L : List Ptr}
    (hc : IsChain next h L) : h = L.head? := by
  cases L with
  | nil => exact hc
  | cons x xs => exact hc.1

theorem IsChain.next_agree {n1 n2 : Ptr → Option Ptr} :
    ∀ {L : List Ptr} {h : Option Ptr}, IsChain n1 h L → IsChain n2 h L →
      ∀ q, q ∈ L → n1 q = n2 q := by
  intro L
  induction L with
  | nil => intro h _ _ q hq; simp at hq
  | cons x xs ih =>
    intro h h1 h2 q hq
    have e1 : n1 x = xs.head? := IsChain.head_eq h1.2
    have e2 : n2 x = xs.head? := IsChain.head_eq h2.2
    rcases List.mem_cons.mp hq with hqx | hqx
    · rw [hqx, e1, e2]
    · have h2a : IsChain n2 (n1 x) xs := by rw [e1, ← e2]; exact h2.2
      exact ih h1.2 h2a q hqx

/-- C15: register/deregister round trip.  On a live registry whose chain is `L`
(a chain is duplicate-free), constructing a provider `p` not in `L` and then
destroying it at once returns, and leaves the chain `L`: the head pointer is
the one before the construction, and so is the `next` field of every provider
of `L`; this covers the empty chain. -/
theorem C15_register_deregister_round_trip
    (w : World) (L : List Ptr) (p : Ptr) (fuel : Nat)
    (hlive : Live w) (hL : IsChain w.next w.first L) (hp : p ∉ L) (hfuel : L.length < fuel) :
    ∃ w1 w2, DKAllocatorChain.construct fuel p w = .ok w1 ∧
      DKAllocatorChain.destruct fuel p w1 = .ok w2 ∧
      IsChain w2.next w2.first L ∧ w2.first = w.first ∧ ∀ q, q ∈ L → w2.next q = w.next q := by
  obtain ⟨w1, h1, hl1, hc1, _, _⟩ := @construct_spec w L p fuel hlive hL hp (by omega)
  have hmem : p ∈ L ++ [p] := by simp
  obtain ⟨w2, h2, _, hc2, _, _⟩ :=
    @destruct_spec w1 (L ++ [p]) p fuel hl1 hc1 hmem
      (by simp only [List.length_append, List.length_singleton]; omega)
  have he : (L ++ [p]).erase p = L := by
    rw [List.erase_append_right _ hp]
    simp
  rw [he] at hc2
  have hfirst : w2.first = w.first := by
    rw [IsChain.head_eq hc2, IsChain.head_eq hL]
  refine ⟨w1, w2, h1, h2, hc2, hfirst, ?_⟩
  have hc2a : IsChain w2.next w.first L := by rw [← hfirst]; exact hc2
  exact IsChain.next_agree hc2a hL

/-- Witness of C15: provider 3 is registered on the chain `1 → 2` and destroyed
at once. -/
theorem C15_register_deregister_round_trip_witness :
    (Live twoWorld ∧ IsChain twoWorld.next twoWorld.first [1, 2] ∧ 3 ∉ [1, 2]) ∧
    ∃ w1 w2, DKAllocatorChain.construct 3 3 twoWorld = .ok w1 ∧
      DKAllocatorChain.destruct 3 3 w1 = .ok w2 ∧
      IsChain w2.next w2.first [1, 2] ∧ w2.first = twoWorld.first ∧
      ∀ q, q ∈ [1, 2] → w2.next q = twoWorld.next q :=
  ⟨⟨by decide, by decide, by decide⟩,
   C15_register_deregister_round_trip twoWorld [1, 2] 3 3 (by decide) (by decide) (by decide)
    (by decide)⟩

/-- C16: cleanup visits each provider once, in registration order.  On a live
registry whose chain is `L` (a chain is duplicate-free), `Cleanup` returns and
the purge calls it makes are those of the providers of `L`, in the order of `L`:
each provider of `L` is purged once and no other provider is purged; on the
empty chain no purge call is made and the result is 0. -/
theorem C16_cleanup_purges_in_registration_order
    (bits : Nat) (Purge : Ptr → Nat) (w : World) (L : List Ptr) (fuel : Nat)
    (hlive : Live w) (hL : IsChain w.next w.first L) (hfuel : L.length < fuel) :
    ∃ w1 r, DKAllocatorChain.Cleanup bits Purge fuel w = .ok (w1, r) ∧
      w1.log = w.log ++ L.map Event.purged ∧
      (∀ p, (L.map Event.purged).count (Event.purged p) = if p ∈ L then 1 else 0) ∧
      (L = [] → w1.log = w.log ∧ r = 0) := by
  refine ⟨_, _, cleanup_spec hlive hL hfuel, rfl, ?_, ?_⟩
  · intro p
    have hinj : Function.Injective Event.purged := by
      intro a b hab
      exact Event.purged.inj hab
    rw [List.count_map_of_injective L Event.purged hinj p]
    exact List.count_eq_of_nodup (IsChain.nodup hL)
  · intro hnil
    subst hnil
    simp

/-- Witness of C16: on the chain `1 → 2 → 3` the purge calls are those of 1, 2
and 3, in that order. -/
theorem C16_cleanup_purges_in_registration_order_witness :
    (Live threeWorld ∧ IsChain threeWorld.next threeWorld.first [1, 2, 3]) ∧
    ∃ w1 r, DKAllocatorChain.Cleanup 64 (fun p => 10 * p) 4 threeWorld = .ok (w1, r) ∧
      w1.log = threeWorld.log ++ [1, 2, 3].map Event.purged ∧
      (∀ p, ([1, 2, 3].map Event.purged).count (Event.purged p)
        = if p ∈ [1, 2, 3] then 1 else 0) ∧
      (([1, 2, 3] : List Ptr) = [] → w1.log = threeWorld.log ∧ r = 0) :=
  ⟨⟨by decide, by decide⟩,
   C16_cleanup_purges_in_registration_order 64 (fun p => 10 * p) threeWorld [1, 2, 3] 4
    (by decide) (by decide) (by decide)⟩

theorem decrement_int (c : Nat) :
    (((c + RefCountMod - 1) % RefCountMod : Nat) : Int) = ((c : Int) - 1) % 2 ^ 32 := by
  unfold RefCountMod
  omega

theorem increment_int (c : Nat) :
    (((c + 1) % RefCountMod : Nat) : Int) = ((c : Int) + 1) % 2 ^ 32 := by
  unfold RefCountMod
  omega

/-- C17: an unbalanced release wraps instead of tearing down.  On a live
registry whose reference count is 0, `DecrementRef` returns
`(0 - 1) mod 2 ^ 32 = 4294967295`, the asserted condition `ref >= 0` holds for
that value, and the token destructor returns without running the registry
destructor: the registry is still alive, with count 4294967295.  For every count
`c`, `DecrementRef` returns `(c - 1) mod 2 ^ 32` and `IncrementRef` returns
`(c + 1) mod 2 ^ 32`. -/
theorem C17_unbalanced_release_wraps
    (w : World) (fuel : Nat) (hlive : Live w) :
    (w.refCount = 0 →
      (Chain.DecrementRef w).2 = 4294967295 ∧
      Maintainer.refAssertion (Chain.DecrementRef w).2 = true ∧
      ∃ w1, Maintainer.destruct fuel w = .ok w1 ∧ Live w1 ∧ w1.refCount = 4294967295 ∧
        teardowns w1 = teardowns w) ∧
    ((Chain.DecrementRef w).2 : Int) = ((w.refCount : Int) - 1) % 2 ^ 32 ∧
    ((Chain.IncrementRef w).2 : Int) = ((w.refCount : Int) + 1) % 2 ^ 32 := by
  refine ⟨?_, ?_, ?_⟩
  · intro hz
    have hval : (w.refCount + RefCountMod - 1) % RefCountMod = 4294967295 := by
      rw [hz]; rfl
    have hne : (w.refCount + RefCountMod - 1) % RefCountMod ≠ 0 := by
      rw [hval]; decide
    have hrun := @maintainer_destruct_keep w fuel hlive hne
    have hdec : (Chain.DecrementRef w).2 = (w.refCount + RefCountMod - 1) % RefCountMod := by
      simp only [Chain.DecrementRef]
    rw [hdec]
    generalize (w.refCount + RefCountMod - 1) % RefCountMod = r at hval hrun ⊢
    subst hval
    refine ⟨rfl, by decide, { w with refCount := 4294967295 }, hrun, ⟨hlive.1, hlive.2⟩, rfl, ?_⟩
    show teardowns { w with refCount := 4294967295 } = teardowns w
    unfold teardowns
    rfl
  · have hdec : (Chain.DecrementRef w).2 = (w.refCount + RefCountMod - 1) % RefCountMod := by
      simp only [Chain.DecrementRef]
    rw [hdec]
    exact decrement_int w.refCount
  · have hinc : (Chain.IncrementRef w).2 = (w.refCount + 1) % RefCountMod := by
      simp only [Chain.IncrementRef]
    rw [hinc]
    exact increment_int w.refCount

/-- Witness of C17: a token destroyed on a fresh registry (count 0). -/
theorem C17_unbalanced_release_wraps_witness :
    (Live freshWorld ∧ freshWorld.refCount = 0) ∧
    ((freshWorld.refCount = 0 →
      (Chain.DecrementRef freshWorld).2 = 4294967295 ∧
      Maintainer.refAssertion (Chain.DecrementRef freshWorld).2 = true ∧
      ∃ w1, Maintainer.destruct 1 freshWorld = .ok w1 ∧ Live w1 ∧ w1.refCount = 4294967295 ∧
        teardowns w1 = teardowns freshWorld) ∧
    ((Chain.DecrementRef freshWorld).2 : Int) = ((freshWorld.refCount : Int) - 1) % 2 ^ 32 ∧
    ((Chain.IncrementRef freshWorld).2 : Int) = ((freshWorld.refCount : Int) + 1) % 2 ^ 32) :=
  ⟨⟨by decide, rfl⟩, C17_unbalanced_release_wraps freshWorld 1 (by decide)⟩

theorem increment_pos_iff {c : Nat} (hc : c < RefCountMod) :
    0 < (c + 1) % RefCountMod ↔ c ≠ 4294967295 := by
  unfold RefCountMod at *
  omega

/-- C14 (as amended): on a live registry with reference count `c` (an
`unsigned int`), the value returned by `IncrementRef` in the token constructor
is `(c + 1) mod 2 ^ 32`; it is positive exactly when `c` is not `2 ^ 32 - 1`.
The condition the constructor asserts on it is `ref >= 0`, which holds for
every value, and the constructor returns in every case. -/
theorem C14_increment_result_and_assertion
    (w : World) (hlive : Live w) (hc : w.refCount < RefCountMod) :
    (Chain.IncrementRef w).2 = (w.refCount + 1) % RefCountMod ∧
    (0 < (Chain.IncrementRef w).2 ↔ w.refCount ≠ 4294967295) ∧
    Maintainer.refAssertion (Chain.IncrementRef w).2 = true ∧
    ∃ w1, Maintainer.construct w = .ok w1 ∧ w1.refCount = (Chain.IncrementRef w).2 ∧
      Live w1 := by
  have hinc : (Chain.IncrementRef w).2 = (w.refCount + 1) % RefCountMod := by
    simp only [Chain.IncrementRef]
  have hiff := increment_pos_iff hc
  have hrun := maintainer_construct_live hlive
  rw [hinc]
  generalize (w.refCount + 1) % RefCountMod = r at hiff hrun ⊢
  refine ⟨rfl, hiff, ?_, { w with refCount := r }, hrun, rfl, ⟨hlive.1, hlive.2⟩⟩
  simp [Maintainer.refAssertion]

/-- Witness of C14 (as amended): a token constructed on a fresh registry. -/
theorem C14_increment_result_and_assertion_witness :
    (Live freshWorld ∧ freshWorld.refCount < RefCountMod) ∧
    ((Chain.IncrementRef freshWorld).2 = (freshWorld.refCount + 1) % RefCountMod ∧
    (0 < (Chain.IncrementRef freshWorld).2 ↔ freshWorld.refCount ≠ 4294967295) ∧
    Maintainer.refAssertion (Chain.IncrementRef freshWorld).2 = true ∧
    ∃ w1, Maintainer.construct freshWorld = .ok w1 ∧
      w1.refCount = (Chain.IncrementRef freshWorld).2 ∧ Live w1) :=
  ⟨⟨by decide, by decide⟩,
   C14_increment_result_and_assertion freshWorld (by decide) (by decide)⟩

/-- C14 fails as stated: on a live registry whose count is `2 ^ 32 - 1` the
value returned by `IncrementRef` in the token constructor is 0, which is not
positive; the asserted condition `ref >= 0` holds for 0 and the constructor
returns, so positivity is not what the constructor asserts. -/
theorem C14_zero_after_wrap_counterexample :
    Live maxCountWorld ∧ maxCountWorld.refCount < RefCountMod ∧
    (Chain.IncrementRef maxCountWorld).2 = 0 ∧
    ¬ 0 < (Chain.IncrementRef maxCountWorld).2 ∧
    Maintainer.refAssertion (Chain.IncrementRef maxCountWorld).2 = true ∧
    ∃ w1, Maintainer.construct maxCountWorld = .ok w1 ∧ w1.refCount = 0 := by
  have h0 : (Chain.IncrementRef maxCountWorld).2 = 0 := rfl
  refine ⟨by decide, by decide, h0, ?_, ?_, ⟨_, rfl, rfl⟩⟩
  · rw [h0]; decide
  · rw [h0]; rfl

/-! ## The iterations of the teardown loop -/

/-- One iteration of the teardown loop on a non-empty chain: the walk finds the
last node, its destructor unlinks it, and the loop goes on from the shorter
chain. -/
theorem drain_iteration {fuel : Nat} {w : World} {init : List Ptr} {last : Ptr}
    (hlive : Live w) (hL : IsChain w.next w.first (init ++ [last]))
    (hfuel : init.length < fuel) :
    ∃ w1, DKAllocatorChain.destruct fuel last w = .ok w1 ∧ Live w1 ∧
      IsChain w1.next w1.first init ∧ w1.refCount = w.refCount ∧
      w1.log = w.log ++ [Event.destroyed last] ∧
      (∃ x, w.first = some x ∧ walkLast fuel w.next x = some last) ∧
      ∀ n, Chain.drain fuel (n + 1) w = Chain.drain fuel n w1 := by
  obtain ⟨x, xs, hx⟩ : ∃ x xs, init ++ [last] = x :: xs := by
    cases init with
    | nil => exact ⟨last, [], rfl⟩
    | cons a t => exact ⟨a, t ++ [last], rfl⟩
  have hlen : xs.length = init.length := by
    have := congrArg List.length hx
    simp only [List.length_append, List.length_singleton, List.length_cons,
      List.length_nil] at this
    omega
  have hlast : (x :: xs).getLast? = some last := by
    rw [← hx, List.getLast?_concat]
  have hL1 : IsChain w.next w.first (x :: xs) := by rw [← hx]; exact hL
  have hfirst : w.first = some x := hL1.1
  have hc : IsChain w.next (some x) (x :: xs) := ⟨rfl, hL1.2⟩
  have hwalk := walkLast_chain xs x fuel hc (by omega)
  rw [hlast] at hwalk
  have hmem : last ∈ init ++ [last] := by simp
  obtain ⟨w1, h1, hl1, hc1, hr1, hg1⟩ :=
    @destruct_spec w (init ++ [last]) last fuel hlive hL hmem
      (by simp only [List.length_append, List.length_singleton]; omega)
  have he : (init ++ [last]).erase last = init := by
    have hlast1 : (init ++ [last]).getLast? = some last := List.getLast?_concat init
    rw [(erase_getLast_of_nodup (IsChain.nodup hL) hlast1).1, List.dropLast_concat]
  rw [he] at hc1
  refine ⟨w1, h1, hl1, hc1, hr1, hg1, ⟨x, hfirst, hwalk⟩, ?_⟩
  intro n
  simp only [Chain.drain, hfirst, hwalk, h1]

/-- With as many iterations as the chain has providers the teardown loop is
not finished. -/
theorem drain_short {fuel : Nat} :
    ∀ (n : Nat) (w : World) (L : List Ptr), Live w → IsChain w.next w.first L →
      L.length = n → L.length ≤ fuel → Chain.drain fuel n w = .error Fault.outOfFuel := by
  intro n
  induction n with
  | zero => intro w L _ _ _ _; rfl
  | succ n ih =>
    intro w L hlive hL hn hf
    have hne : L ≠ [] := by
      intro h; rw [h] at hn; simp at hn
    have hsplit : L = L.dropLast ++ [L.getLast hne] := (List.dropLast_append_getLast hne).symm
    have hlen : L.dropLast.length = n := by simp [hn]
    rw [hsplit] at hL
    obtain ⟨w1, _, hl1, hc1, _, _, _, hstep⟩ :=
      @drain_iteration fuel w L.dropLast (L.getLast hne) hlive hL (by omega)
    rw [hstep n]
    exact ih w1 L.dropLast hl1 hc1 hlen (by omega)

/-- State of the teardown loop after the providers `pre` (the last ones of the
chain, in reverse order) have been destroyed. -/
theorem drain_after {fuel : Nat} :
    ∀ (pre : List Ptr) (w : World) (rest : List Ptr), Live w →
      IsChain w.next w.first (rest ++ pre.reverse) → (rest ++ pre.reverse).length ≤ fuel →
      ∃ wk, destructAll fuel pre w = .ok wk ∧ Live wk ∧ IsChain wk.next wk.first rest ∧
        wk.log = w.log ++ pre.map Event.destroyed ∧
        ∀ n, Chain.drain fuel (n + pre.length) w = Chain.drain fuel n wk := by
  intro pre
  induction pre with
  | nil =>
    intro w rest hlive hL _
    exact ⟨w, rfl, hlive, by simpa using hL, by simp, fun n => rfl⟩
  | cons d pre ih =>
    intro w rest hlive hL hf
    have hL1 : IsChain w.next w.first ((rest ++ pre.reverse) ++ [d]) := by
      simpa [List.reverse_cons, List.append_assoc] using hL
    have hlen : (rest ++ pre.reverse).length < fuel := by
      simp only [List.length_append, List.length_reverse, List.length_cons] at hf ⊢
      omega
    obtain ⟨w1, h1, hl1, hc1, _, hg1, _, hstep⟩ := drain_iteration hlive hL1 hlen
    obtain ⟨wk, h2, hl2, hc2, hg2, hrest⟩ := ih w1 rest hl1 hc1 (le_of_lt hlen)
    refine ⟨wk, ?_, hl2, hc2, ?_, ?_⟩
    · simp only [destructAll, h1, h2]
    · rw [hg2, hg1]; simp
    · intro n
      have : n + (d :: pre).length = (n + pre.length) + 1 := by
        simp only [List.length_cons]; omega
      rw [this, hstep, hrest]

/-- C11: teardown terminates.  On a live registry whose chain is `L` (a chain is
finite and duplicate-free), the loop of the registry destructor finishes with
`L.length + 1` iterations and not with `L.length`: it makes `L.length` destroy
iterations, recorded as that many destructions in the trace, and a last one that
reads a null head and stops.  A destroy iteration on `L = init ++ [last]` walks
from the head to `last` and destroys it, which leaves the chain `init`, shorter
by one, and the loop goes on from there.  Hence the destructor returns on every
such chain. -/
theorem C11_teardown_terminates
    (w : World) (L : List Ptr) (fuel : Nat)
    (hlive : Live w) (hL : IsChain w.next w.first L) (hfuel : L.length < fuel) :
    (∃ w1, Chain.drain fuel (L.length + 1) w = .ok w1 ∧ w1.first = none ∧
      w1.log = w.log ++ L.reverse.map Event.destroyed ∧
      (L.reverse.map Event.destroyed).length = L.length) ∧
    Chain.drain fuel L.length w = .error Fault.outOfFuel ∧
    (∀ init last, L = init ++ [last] →
      ∃ x w1, w.first = some x ∧ walkLast fuel w.next x = some last ∧
        DKAllocatorChain.destruct fuel last w = .ok w1 ∧ IsChain w1.next w1.first init ∧
        init.length + 1 = L.length ∧
        ∀ n, Chain.drain fuel (n + 1) w = Chain.drain fuel n w1) ∧
    (L = [] → w.first = none ∧ ∀ n, Chain.drain fuel (n + 1) w = .ok w) ∧
    (∃ w2, Chain.delete fuel w = .ok w2) := by
  refine ⟨?_, ?_, ?_, ?_, ?_⟩
  · obtain ⟨w1, h1, _, hf1, _, hg1⟩ :=
      @drain_spec fuel (L.length + 1) w L hlive hL (by omega) (by omega)
    exact ⟨w1, h1, hf1, hg1, by simp⟩
  · exact drain_short L.length w L hlive hL rfl (by omega)
  · intro init last hsplit
    rw [hsplit] at hL
    have hlen : init.length + 1 = L.length := by rw [hsplit]; simp
    obtain ⟨w1, h1, _, hc1, _, _, ⟨x, hx, hwalk⟩, hstep⟩ :=
      @drain_iteration fuel w init last hlive hL (by omega)
    exact ⟨x, w1, hx, hwalk, h1, hc1, hlen, hstep⟩
  · intro hnil
    subst hnil
    have hnone : w.first = none := hL
    refine ⟨hnone, fun n => ?_⟩
    simp only [Chain.drain, hnone]
  · obtain ⟨w2, h2, _⟩ := delete_spec hlive hL hfuel
    exact ⟨w2, h2⟩

/-- Witness of C11: the chain `1 → 2 → 3` is drained in three destroy iterations
and a fourth, final one. -/
theorem C11_teardown_terminates_witness :
    (Live threeWorld ∧ IsChain threeWorld.next threeWorld.first [1, 2, 3]) ∧
    ((∃ w1, Chain.drain 4 ([1, 2, 3].length + 1) threeWorld = .ok w1 ∧ w1.first = none ∧
      w1.log = threeWorld.log ++ [1, 2, 3].reverse.map Event.destroyed ∧
      ([1, 2, 3].reverse.map Event.destroyed).length = [1, 2, 3].length) ∧
    Chain.drain 4 [1, 2, 3].length threeWorld = .error Fault.outOfFuel ∧
    (∀ init last, [1, 2, 3] = init ++ [last] →
      ∃ x w1, threeWorld.first = some x ∧ walkLast 4 threeWorld.next x = some last ∧
        DKAllocatorChain.destruct 4 last threeWorld = .ok w1 ∧
        IsChain w1.next w1.first init ∧ init.length + 1 = [1, 2, 3].length ∧
        ∀ n, Chain.drain 4 (n + 1) threeWorld = Chain.drain 4 n w1) ∧
    (([1, 2, 3] : List Ptr) = [] →
      threeWorld.first = none ∧ ∀ n, Chain.drain 4 (n + 1) threeWorld = .ok threeWorld) ∧
    (∃ w2, Chain.delete 4 threeWorld = .ok w2)) :=
  ⟨⟨by decide, by decide⟩,
   C11_teardown_terminates threeWorld [1, 2, 3] 4 (by decide) (by decide) (by decide)⟩

/-- C12: the registry stays reachable while it force-destroys providers.  On a
live registry whose chain is `L`, let `p` be any provider of `L` and `pre` the
providers the registry destructor destroys before it, that is,
`L.reverse = pre ++ p :: post`.  The teardown loop reaches the state `wk` left by the destructions of
`pre`; in `wk` the call `Chain::Instance()` returns the registry, not `NULL`,
and the destructor run for `p` returns, so it does not dereference a null
registry; the loop goes on from its result.  The instance pointer is reset only
at the end, after the destructions of all of `L.reverse`. -/
theorem C12_registry_reachable_during_teardown
    (w : World) (L : List Ptr) (fuel : Nat)
    (hlive : Live w) (hL : IsChain w.next w.first L) (hfuel : L.length < fuel)
    (pre : List Ptr) (p : Ptr) (post : List Ptr) (hsplit : L.reverse = pre ++ p :: post) :
    ∃ wk wk1, destructAll fuel pre w = .ok wk ∧
      (∀ n, Chain.drain fuel (n + pre.length) w = Chain.drain fuel n wk) ∧
      Chain.Instance wk = (wk, true) ∧
      wk.log = w.log ++ pre.map Event.destroyed ∧
      DKAllocatorChain.destruct fuel p wk = .ok wk1 ∧
      (∀ n, Chain.drain fuel (n + 1) wk = Chain.drain fuel n wk1) ∧
      ∃ w1, Chain.delete fuel w = .ok w1 ∧ w1.instanceNonNull = false ∧
        w1.log = w.log ++ L.reverse.map Event.destroyed ++
          [Event.destroyTable, Event.clearInstance] := by
  have hLeq : L = (post.reverse ++ [p]) ++ pre.reverse := by
    have := congrArg List.reverse hsplit
    simpa [List.reverse_append, List.reverse_cons, List.append_assoc] using this
  have hlenL : ((post.reverse ++ [p]) ++ pre.reverse).length = L.length := by rw [← hLeq]
  have hL1 : IsChain w.next w.first ((post.reverse ++ [p]) ++ pre.reverse) := by
    rw [← hLeq]; exact hL
  obtain ⟨wk, hk, hlk, hck, hgk, hrest⟩ :=
    @drain_after fuel pre w (post.reverse ++ [p]) hlive hL1 (by rw [hlenL]; omega)
  have hpost : post.reverse.length < fuel := by
    have h1 := hlenL
    simp only [List.length_append, List.length_reverse, List.length_singleton] at h1
    simp only [List.length_reverse]
    omega
  obtain ⟨wk1, hd, _, _, _, _, _, hstep⟩ :=
    @drain_iteration fuel wk post.reverse p hlk hck hpost
  obtain ⟨w1, h1, _, hi1, _, _, hg1⟩ := delete_spec hlive hL hfuel
  exact ⟨wk, wk1, hk, hrest, Chain.Instance_of_live hlk, hgk, hd, hstep, w1, h1, hi1, hg1⟩

/-- Witness of C12: in the teardown of the chain `1 → 2 → 3`, provider 2 is
destroyed after provider 3, in a state where the registry is reachable. -/
theorem C12_registry_reachable_during_teardown_witness :
    (Live threeWorld ∧ IsChain threeWorld.next threeWorld.first [1, 2, 3] ∧
      [1, 2, 3].reverse = [3] ++ 2 :: [1]) ∧
    ∃ wk wk1, destructAll 4 [3] threeWorld = .ok wk ∧
      (∀ n, Chain.drain 4 (n + [3].length) threeWorld = Chain.drain 4 n wk) ∧
      Chain.Instance wk = (wk, true) ∧
      wk.log = threeWorld.log ++ [3].map Event.destroyed ∧
      DKAllocatorChain.destruct 4 2 wk = .ok wk1 ∧
      (∀ n, Chain.drain 4 (n + 1) wk = Chain.drain 4 n wk1) ∧
      ∃ w1, Chain.delete 4 threeWorld = .ok w1 ∧ w1.instanceNonNull = false ∧
        w1.log = threeWorld.log ++ [1, 2, 3].reverse.map Event.destroyed ++
          [Event.destroyTable, Event.clearInstance] :=
  ⟨⟨by decide, by decide, by decide⟩,
   C12_registry_reachable_during_teardown threeWorld [1, 2, 3] 4 (by decide) (by decide)
    (by decide) [3] 2 [1] (by decide)⟩

/-! ## The trace of a registry lifetime -/

theorem LiveTrace.extend {c w1 : World} {evs : List Event} (hc : LiveTrace c)
    (h1 : w1.holderInit = c.holderInit) (h2 : w1.instanceNonNull = c.instanceNonNull)
    (h3 : w1.log = c.log ++ evs) (hev : evs.all Event.isProviderEvent = true) :
    LiveTrace w1 := by
  obtain ⟨a, b, mid, hlog, hmid⟩ := hc
  refine ⟨by rw [h1, a], by rw [h2, b], mid ++ evs, ?_, ?_⟩
  · rw [h3, hlog]; rfl
  · rw [List.all_append, hmid, hev]; rfl

theorem LiveTrace.same {c w1 : World} (hc : LiveTrace c)
    (h1 : w1.holderInit = c.holderInit) (h2 : w1.instanceNonNull = c.instanceNonNull)
    (h3 : w1.log = c.log) : LiveTrace w1 :=
  @LiveTrace.extend c w1 [] hc h1 h2 (by rw [h3]; simp) rfl

theorem LiveTrace.live {w : World} (h : LiveTrace w) : Live w := ⟨h.1, h.2.1⟩

/-- The registry returned by `Chain::Instance`, when it is not `NULL`, has a
live trace. -/
theorem instance_liveTrace {w c : World} (hinv : LifetimeTrace w)
    (heq : Chain.Instance w = (c, true)) : LiveTrace c := by
  unfold Chain.Instance at heq
  by_cases hh : w.holderInit = true
  · simp only [hh, if_true] at heq
    have hc : w = c := (Prod.mk.inj heq).1
    have hi : w.instanceNonNull = true := (Prod.mk.inj heq).2
    subst hc
    rcases hinv with h | h | h
    · rw [h.1] at hh; exact absurd hh (by simp)
    · exact h
    · rw [h.2.1] at hi; exact absurd hi (by simp)
  · simp only [hh] at heq
    have hc := (Prod.mk.inj heq).1
    rcases hinv with h | h | h
    · subst hc
      exact ⟨rfl, rfl, [], by simp [Chain.new, h.2.2], rfl⟩
    · exact absurd h.1 hh
    · exact absurd h.1 hh

theorem cleanupLoop_events {bits : Nat} {Purge : Ptr → Nat} {next : Ptr → Option Ptr} :
    ∀ (fuel : Nat) (h : Option Ptr) (acc r : Nat) (evs : List Event),
      cleanupLoop bits Purge fuel next h acc = some (r, evs) →
      evs.all Event.isProviderEvent = true := by
  intro fuel
  induction fuel with
  | zero => intro h acc r evs he; simp [cleanupLoop] at he
  | succ f ih =>
    intro h acc r evs he
    cases h with
    | none =>
      simp only [cleanupLoop, Option.some.injEq, Prod.mk.injEq] at he
      rw [← he.2]; rfl
    | some chain =>
      simp only [cleanupLoop] at he
      split at he
      · exact absurd he (by simp)
      · rename_i r1 evs1 hrec
        simp only [Option.some.injEq, Prod.mk.injEq] at he
        rw [← he.2]
        simp only [List.all_cons, Event.isProviderEvent, Bool.true_and]
        exact ih _ _ r1 evs1 hrec

theorem destruct_liveTrace {fuel : Nat} {p : Ptr} {w w1 : World} (hinv : LifetimeTrace w)
    (h : DKAllocatorChain.destruct fuel p w = .ok w1) : LiveTrace w1 := by
  unfold DKAllocatorChain.destruct at h
  split at h
  · exact absurd h (by simp)
  · rename_i c heq
    have hc := instance_liveTrace hinv heq
    split at h
    · cases h; exact @LiveTrace.extend c _ [Event.destroyed p] hc rfl rfl rfl rfl
    · split at h
      · exact absurd h (by simp)
      · cases h; exact @LiveTrace.extend c _ [Event.destroyed p] hc rfl rfl rfl rfl

theorem drain_liveTrace {fuel : Nat} :
    ∀ (n : Nat) (w w1 : World), LiveTrace w → Chain.drain fuel n w = .ok w1 →
      LiveTrace w1 := by
  intro n
  induction n with
  | zero => intro w w1 _ h; simp [Chain.drain] at h
  | succ n ih =>
    intro w w1 hinv h
    simp only [Chain.drain] at h
    split at h
    · cases h; exact hinv
    · split at h
      · exact absurd h (by simp)
      · split at h
        · exact absurd h (by simp)
        · rename_i w2 hd
          exact ih w2 w1 (destruct_liveTrace (Or.inr (Or.inl hinv)) hd) h

theorem delete_tornTrace {fuel : Nat} {w w1 : World} (hinv : LiveTrace w)
    (h : Chain.delete fuel w = .ok w1) : TornTrace w1 := by
  unfold Chain.delete at h
  split at h
  · exact absurd h (by simp)
  · rename_i w2 hd
    obtain ⟨a, _, mid, hlog, hmid⟩ := drain_liveTrace fuel w w2 hinv hd
    cases h
    exact ⟨a, rfl, rfl, mid, by simp [hlog], hmid⟩

theorem LifetimeTrace.congr {w w1 : World} (hinv : LifetimeTrace w)
    (h1 : w1.holderInit = w.holderInit) (h2 : w1.instanceNonNull = w.instanceNonNull)
    (h3 : w1.log = w.log) (h4 : w1.first = w.first) : LifetimeTrace w1 := by
  unfold LifetimeTrace LiveTrace TornTrace at *
  rw [h1, h2, h3, h4]
  exact hinv

/-- One operation keeps the shape of the lifetime trace. -/
theorem step_lifetimeTrace {bits : Nat} {Purge : Ptr → Nat} {fuel : Nat} {op : Op}
    {w w1 : World} (hinv : LifetimeTrace w) (h : Op.step bits Purge fuel op w = .ok w1) :
    LifetimeTrace w1 := by
  cases op with
  | getInstance =>
    simp only [Op.step] at h
    cases h
    by_cases hb : (Chain.Instance w).2 = true
    · have heq : Chain.Instance w = ((Chain.Instance w).1, true) := by rw [← hb]
      exact Or.inr (Or.inl (instance_liveTrace hinv heq))
    · unfold Chain.Instance at hb ⊢
      by_cases hh : w.holderInit = true
      · simp only [hh, if_true] at hb ⊢
        exact hinv
      · simp [hh, Chain.new] at hb
  | construct p =>
    simp only [Op.step] at h
    unfold DKAllocatorChain.construct at h
    dsimp only at h
    split at h
    · exact absurd h (by simp)
    · rename_i c heq
      have hinv0 : LifetimeTrace { w with next := Function.update w.next p none } :=
        LifetimeTrace.congr hinv rfl rfl rfl rfl
      have hc := instance_liveTrace hinv0 heq
      split at h
      · split at h
        · exact absurd h (by simp)
        · cases h; exact Or.inr (Or.inl (LiveTrace.same hc rfl rfl rfl))
      · cases h; exact Or.inr (Or.inl (LiveTrace.same hc rfl rfl rfl))
  | destruct p => exact Or.inr (Or.inl (destruct_liveTrace hinv h))
  | tokenConstruct =>
    simp only [Op.step] at h
    unfold Maintainer.construct at h
    split at h
    · exact absurd h (by simp)
    · rename_i c heq
      have hc := instance_liveTrace hinv heq
      simp only [Chain.IncrementRef] at h
      cases h
      exact Or.inr (Or.inl (LiveTrace.same hc rfl rfl rfl))
  | tokenDestruct =>
    simp only [Op.step] at h
    unfold Maintainer.destruct at h
    split at h
    · exact absurd h (by simp)
    · rename_i c heq
      have hc := instance_liveTrace hinv heq
      simp only [Chain.DecrementRef] at h
      generalize (c.refCount + RefCountMod - 1) % RefCountMod = r at h
      by_cases hz : r = 0
      · simp only [hz, if_true] at h
        have hc0 : LiveTrace { c with refCount := 0 } := LiveTrace.same hc rfl rfl rfl
        exact Or.inr (Or.inr (delete_tornTrace hc0 h))
      · simp only [hz, if_false] at h
        cases h
        exact Or.inr (Or.inl (LiveTrace.same hc rfl rfl rfl))
  | cleanup =>
    simp only [Op.step] at h
    split at h
    · exact absurd h (by simp)
    · rename_i r hcl
      cases h
      unfold DKAllocatorChain.Cleanup at hcl
      split at hcl
      · exact absurd hcl (by simp)
      · rename_i c heq
        have hc := instance_liveTrace hinv heq
        split at hcl
        · exact absurd hcl (by simp)
        · rename_i r1 evs hloop
          cases hcl
          exact Or.inr (Or.inl (@LiveTrace.extend c _ evs hc rfl rfl rfl
            (cleanupLoop_events _ _ _ _ _ hloop)))

theorem run_lifetimeTrace {bits : Nat} {Purge : Ptr → Nat} {fuel : Nat} :
    ∀ (ops : List Op) (w w1 : World), LifetimeTrace w →
      run bits Purge fuel ops w = .ok w1 → LifetimeTrace w1 := by
  intro ops
  induction ops with
  | nil =>
    intro w w1 hinv h
    simp only [run] at h
    cases h
    exact hinv
  | cons op ops ih =>
    intro w w1 hinv h
    simp only [run] at h
    split at h
    · exact absurd h (by simp)
    · rename_i w2 hstep
      exact ih w2 w1 (step_lifetimeTrace hinv hstep) h

theorem providerEvents_no_hook {mid : List Event}
    (h : mid.all Event.isProviderEvent = true) :
    mid.count Event.createTable = 0 ∧ mid.count Event.destroyTable = 0 := by
  rw [List.all_eq_true] at h
  constructor
  · rw [List.count_eq_zero]
    intro hm
    exact absurd (h _ hm) (by simp [Event.isProviderEvent])
  · rw [List.count_eq_zero]
    intro hm
    exact absurd (h _ hm) (by simp [Event.isProviderEvent])

theorem lifetimeTrace_counts {w : World} (h : LifetimeTrace w) :
    w.log.count Event.createTable = (if w.holderInit = true then 1 else 0) ∧
    w.log.count Event.destroyTable
      = (if w.holderInit = true ∧ w.instanceNonNull = false then 1 else 0) := by
  rcases h with h | h | h
  · obtain ⟨a, b, c⟩ := h
    simp [a, b, c]
  · obtain ⟨a, b, mid, hlog, hmid⟩ := h
    obtain ⟨c1, c2⟩ := providerEvents_no_hook hmid
    simp [a, b, hlog, List.count_cons, c1, c2]
  · obtain ⟨a, b, _, mid, hlog, hmid⟩ := h
    obtain ⟨c1, c2⟩ := providerEvents_no_hook hmid
    simp [a, b, hlog, List.count_cons, List.count_append, c1, c2]

/-- C13: the hooks fire once per registry lifetime and in order.  In every
state reached from program start by any sequence of operations the trace has
the shape `LifetimeTrace`: it is empty before the registry is created; from its
creation on it starts with `CreateAllocationTable` followed by the setting of
the instance pointer, and, until teardown, only provider events follow; after
teardown it ends with `DestroyAllocationTable` followed by the reset of the
instance pointer, with only provider events in between.  So each hook is in the
trace at most once, the first exactly when the registry has been created, the
second exactly when it has been torn down.  When the registry is created its
chain is empty, and the teardown of a chain `L` records the destructions of all
of `L` before `DestroyAllocationTable`. -/
theorem C13_hooks_once_and_in_order
    (mem : Ptr → Option Ptr) (bits : Nat) (Purge : Ptr → Nat) (fuel : Nat) (ops : List Op)
    (w : World) (hrun : run bits Purge fuel ops (World.start mem) = .ok w) :
    LifetimeTrace w ∧
    w.log.count Event.createTable = (if w.holderInit = true then 1 else 0) ∧
    w.log.count Event.destroyTable
      = (if w.holderInit = true ∧ w.instanceNonNull = false then 1 else 0) ∧
    (∀ w0 : World, w0.holderInit = false →
      (Chain.Instance w0).1.first = none ∧
      (Chain.Instance w0).1.log = w0.log ++ [Event.createTable, Event.setInstance]) ∧
    (∀ (w0 : World) (L : List Ptr) (f : Nat), Live w0 → IsChain w0.next w0.first L →
      L.length < f →
      ∃ w1, Chain.delete f w0 = .ok w1 ∧
        w1.log = w0.log ++ L.reverse.map Event.destroyed ++
          [Event.destroyTable, Event.clearInstance]) := by
  have hstart : LifetimeTrace (World.start mem) := Or.inl ⟨rfl, rfl, rfl⟩
  have hinv := run_lifetimeTrace ops (World.start mem) w hstart hrun
  obtain ⟨c1, c2⟩ := lifetimeTrace_counts hinv
  refine ⟨hinv, c1, c2, ?_, ?_⟩
  · intro w0 h0
    unfold Chain.Instance
    simp [h0, Chain.new]
  · intro w0 L f hlive hL hf
    obtain ⟨w1, h1, _, _, _, _, hg⟩ := delete_spec hlive hL hf
    exact ⟨w1, h1, hg⟩

/-- Witness of C13: from program start, provider 1 registers, a token is
constructed, provider 2 registers, a cleanup runs and the token is destroyed. -/
theorem C13_hooks_once_and_in_order_witness :
    ∃ w, run 64 (fun p => p) 3
        [Op.construct 1, Op.tokenConstruct, Op.construct 2, Op.cleanup, Op.tokenDestruct]
        (World.start (fun _ => none)) = .ok w ∧
      w.log = [Event.createTable, Event.setInstance, Event.purged 1, Event.purged 2,
        Event.destroyed 2, Event.destroyed 1, Event.destroyTable, Event.clearInstance] ∧
      (LifetimeTrace w ∧
      w.log.count Event.createTable = (if w.holderInit = true then 1 else 0) ∧
      w.log.count Event.destroyTable
        = (if w.holderInit = true ∧ w.instanceNonNull = false then 1 else 0) ∧
      (∀ w0 : World, w0.holderInit = false →
        (Chain.Instance w0).1.first = none ∧
        (Chain.Instance w0).1.log = w0.log ++ [Event.createTable, Event.setInstance]) ∧
      (∀ (w0 : World) (L : List Ptr) (f : Nat), Live w0 → IsChain w0.next w0.first L →
        L.length < f →
        ∃ w1, Chain.delete f w0 = .ok w1 ∧
          w1.log = w0.log ++ L.reverse.map Event.destroyed ++
            [Event.destroyTable, Event.clearInstance])) :=
  ⟨_, rfl, rfl,
   C13_hooks_once_and_in_order (fun _ => none) 64 (fun p => p) 3
    [Op.construct 1, Op.tokenConstruct, Op.construct 2, Op.cleanup, Op.tokenDestruct] _ rfl⟩

end DKFoundation
